import Mathlib

/-
Verification development for the resolvers repository: the error normaliser
`toNestErrors` with its helper `isNameInFieldArray` (src/unnamed/part_000) and
the `joiResolver` adapter with its helper `parseErrorSchema` (src/joi/src/joi.ts).

JavaScript objects are modelled as finite trees with string keys (`JTree`):
every node optionally carries an error/field payload (the own data properties
of the object) and has a list of named children in insertion order.  The host
form library's `get`/`set`/`appendErrors` helpers (react-hook-form, an external
dependency accessed through its documented interface) are modelled faithfully,
including `set`'s key normalisation (`stringToPath`), its prototype-pollution
guard, and `get`'s literal-key fallback.
-/

namespace Resolvers

/-- The double-quote character, written by code point to keep the file free of
quote-escaping in character literals. -/
def quoteChar : Char := Char.ofNat 34

/-- The apostrophe character, written by code point. -/
def apostropheChar : Char := Char.ofNat 39

/-- Lookup in a JS object viewed as an association list in insertion order.
Object keys are unique, so the first hit is the value of the property. -/
def assocLookup {β : Type} : List (String × β) → String → Option β
  | [], _ => none
  | (k, v) :: rest, j => if k = j then some v else assocLookup rest j

/-- JS property write `obj[k] = v`: an existing key keeps its position and gets
the new value, a fresh key is appended at the end (insertion order). -/
def assocUpdate {β : Type} : List (String × β) → String → β → List (String × β)
  | [], k, v => [(k, v)]
  | (k1, v1) :: rest, k, v =>
    if k1 = k then (k, v) :: rest else (k1, v1) :: assocUpdate rest k v

/-- A JavaScript object tree: an optional payload (the record data stored at
this node, if the node is an error record or field descriptor) together with
named children in insertion order. -/
inductive JTree (α : Type) : Type where
  | mk : Option α → List (String × JTree α) → JTree α

/-- The record payload stored at a node. -/
def JTree.payload {α : Type} : JTree α → Option α
  | .mk p _ => p

/-- The named children of a node. -/
def JTree.children {α : Type} : JTree α → List (String × JTree α)
  | .mk _ c => c

/-- The empty object. -/
def JTree.empty {α : Type} : JTree α := .mk none []

/-- Split a character list on separator characters; groups keep the original
characters.  Models `String.prototype.split` with a single-character class. -/
def splitGroups (isSep : Char → Bool) : List Char → List (List Char)
  | [] => [[]]
  | c :: cs =>
    let r := splitGroups isSep cs
    if isSep c then [] :: r
    else
      match r with
      | [] => [[c]]
      | g :: gs => (c :: g) :: gs

/-- Split and drop empty groups, as react-hook-form's `compact(....split(...))`. -/
def compactSplit (isSep : Char → Bool) (s : List Char) : List String :=
  ((splitGroups isSep s).map (fun g => String.mk g)).filter (fun x => x != "")

/-- Models react-hook-form's `stringToPath`:
`compact(input.replace(/["|']|\]/g, '').split(/\.|\[/))` — drop double quotes,
pipes, apostrophes and closing brackets, then split on dots and opening
brackets, dropping empty segments. -/
def stringToPath (input : String) : List String :=
  compactSplit (fun c => c == '.' || c == '[')
    (input.toList.filter
      (fun c => !(c == quoteChar || c == '|' || c == apostropheChar || c == ']')))

/-- Models react-hook-form's `isKey`: `/^\w*$/` (ASCII word characters). -/
def isWordChar (c : Char) : Bool := c.isAlphanum || c == '_'

/-- A path that is a plain word is used as a single key by `set`. -/
def isKeyName (s : String) : Bool := s.toList.all isWordChar

/-- The key list `set` walks: `isKey(path) ? [path] : stringToPath(path)`. -/
def setPath (s : String) : List String := if isKeyName s then [s] else stringToPath s

/-- Models react-hook-form `set`'s prototype-pollution guard: writing to these
keys aborts the walk. -/
def forbiddenKey (k : String) : Bool :=
  k == "__proto__" || k == "constructor" || k == "prototype"

/-- Models the walk of react-hook-form's `set` over an explicit key list:
intermediate missing children are created empty, the final key is assigned the
value (replacing whatever subtree was there), and a guarded key aborts the
remaining walk.  Existing intermediate values are descended into (every stored
value in this model is an object). -/
def setSegs {α : Type} : JTree α → List String → JTree α → JTree α
  | t, [], _ => t
  | t, k :: ks, v =>
    if forbiddenKey k then t
    else
      match ks with
      | [] => JTree.mk t.payload (assocUpdate t.children k v)
      | _ :: _ =>
        let sub := (assocLookup t.children k).getD JTree.empty
        JTree.mk t.payload (assocUpdate t.children k (setSegs sub ks v))

/-- Models react-hook-form's `set(object, path, value)`. -/
def setTree {α : Type} (t : JTree α) (path : String) (v : JTree α) : JTree α :=
  setSegs t (setPath path) v

/-- Navigation part of react-hook-form's `get`: reduce over keys, propagating
`undefined` (here `none`). -/
def getSegs {α : Type} : JTree α → List String → Option (JTree α)
  | t, [] => some t
  | t, k :: ks =>
    match assocLookup t.children k with
    | some c => getSegs c ks
    | none => none

/-- The key list react-hook-form's `get` walks: `compact(path.split(/[,[\].]+?/))`. -/
def getPathSegs (path : String) : List String :=
  compactSplit (fun c => c == ',' || c == '[' || c == ']' || c == '.') path.toList

/-- Models react-hook-form's `get(object, path)` (with `defaultValue` left
`undefined`): an empty path yields `undefined`; otherwise the split key list is
walked, and if the walk ends on `undefined` or consumed no keys, the literal
property `object[path]` is the fallback result. -/
def getTree {α : Type} (t : JTree α) (path : String) : Option (JTree α) :=
  if path = "" then none
  else
    match getPathSegs path with
    | [] => assocLookup t.children path
    | k :: ks =>
      match getSegs t (k :: ks) with
      | some r => some r
      | none => assocLookup t.children path

/-- Source `escapeBrackets` (src/unnamed/part_000, lines 51-53):
`input.replace(/\]|\[/g, '')`. -/
def escapeBrackets (input : String) : String :=
  String.mk (input.toList.filter (fun c => !(c == '[' || c == ']')))

/-- One-character regex match step for the pattern built by
`isNameInFieldArray`: inside the interpolated `path`, `.` is a wildcard (the
path is not regex-escaped by the source) and every other character matches
itself.  Consumes the pattern against a prefix of the subject, returning the
remaining subject.  The model covers subjects/paths without further regex
metacharacters, which is every name reachable here. -/
def regexPrefixMatch : List Char → List Char → Option (List Char)
  | [], rest => some rest
  | _ :: _, [] => none
  | p :: ps, c :: cs =>
    if p == '.' || p == c then regexPrefixMatch ps cs else none

/-- Whether `name` matches the regex `^<path>\.\d+` of the source: after the
(unescaped) `path`, a literal dot followed by at least one ASCII digit. -/
def matchesArrayPattern (path name : String) : Bool :=
  match regexPrefixMatch path.toList name.toList with
  | some (c1 :: c2 :: _) => c1 == '.' && c2.isDigit
  | _ => false

/-- Source `isNameInFieldArray` (src/unnamed/part_000, lines 38-44):
`names.some((n) => escapeBrackets(n).match(`^${path}\.\d+`))` with
`path = escapeBrackets(name)`. -/
def isNameInFieldArray (names : List String) (name : String) : Bool :=
  let path := escapeBrackets name
  names.any (fun n => matchesArrayPattern path (escapeBrackets n))

/-- A field `ref`: an opaque handle onto the registered input, modelled by an
identifying name. -/
structure FieldRef : Type where
  name : String
deriving DecidableEq, Repr

/-- An element of an aggregated criteria value: react-hook-form's
`appendErrors` stores `message || true`, so a collected element is either a
message string or the boolean `true` (for an empty message). -/
inductive MsgElem : Type where
  | tru : MsgElem
  | str : String → MsgElem
deriving DecidableEq, Repr

/-- The value stored under one error type inside `FieldError.types`: `true`,
a single message string, or an array collected by `[].concat(...)`. -/
inductive CriteriaVal : Type where
  | tru : CriteriaVal
  | str : String → CriteriaVal
  | arr : List MsgElem → CriteriaVal
deriving DecidableEq, Repr

/-- JS truthiness of a criteria value: `true` and arrays are truthy, a string
is truthy when nonempty. -/
def truthyCV : CriteriaVal → Bool
  | .tru => true
  | .str s => s != ""
  | .arr _ => true

/-- `[].concat(messages, error.message)`: flatten the previous value and append
the new message. -/
def concatCV : CriteriaVal → String → List MsgElem
  | .tru, m => [.tru, .str m]
  | .str s, m => [.str s, .str m]
  | .arr l, m => l ++ [.str m]

/-- Whether a message string occurs inside a criteria value. -/
def msgMem (m : String) : CriteriaVal → Bool
  | .tru => false
  | .str s => s == m
  | .arr l => l.any (fun x => x == .str m)

/-- A react-hook-form `FieldError` record: `message`, `type`, the optional
per-criteria aggregation `types`, and the field `ref` attached by
`toNestErrors`. -/
structure FieldError : Type where
  message : String
  type : String
  types : Option (List (String × CriteriaVal)) := none
  ref : Option FieldRef := none
deriving DecidableEq, Repr

/-- The error tree returned to the host library. -/
abbrev ETree := JTree FieldError

/-- An error record viewed as a tree node with no children. -/
def leafE (e : FieldError) : ETree := JTree.mk (some e) []

/-- The resolver options handed over by the host form library: the field
registry (a JS object holding field descriptors, whose payloads are their
`ref`s), the optional list of names under validation, and the flags read by
the resolvers.  `validateFieldsNatively` (a repository file not present under
src/) only reports validity onto the DOM refs — spec: native validation is a
side effect on the external collaborators — so it has no effect on the pure
error data modelled here. -/
structure ResOptions : Type where
  fields : JTree FieldRef
  names : Option (List String) := none
  shouldUseNativeValidation : Bool := false
  criteriaMode : Option String := none

/-- `get(options.fields, path)` followed by `field && field.ref`
(src/unnamed/part_000, lines 20-23). -/
def fieldRefOf (opts : ResOptions) (path : String) : Option FieldRef :=
  (getTree opts.fields path).bind JTree.payload

/-- `Object.assign(errors[path] || {}, { ref: field && field.ref })`:
the error record with the field's ref written onto it. -/
def attachRef (opts : ResOptions) (path : String) (e : FieldError) : FieldError :=
  { e with ref := fieldRefOf opts path }

/-- One iteration of the `for (const path in errors)` loop of `toNestErrors`
(src/unnamed/part_000, lines 19-33), acting on the accumulated `fieldErrors`
tree; `e` is the record with the ref already attached. -/
def toNestStep (ns : List String) (acc : ETree) (path : String) (e : FieldError) : ETree :=
  if isNameInFieldArray ns path then
    let fae := (getTree acc path).getD JTree.empty
    let fae2 := setTree fae "root" (leafE e)
    setTree acc path fae2
  else
    setTree acc path (leafE e)

/-- The loop of `toNestErrors`: walks the entries of `errors` in object order,
returning the built tree together with the final state of the input records
(each mutated in place by the `Object.assign` that writes `ref`). -/
def toNestLoop (ns : List String) (opts : ResOptions) :
    List (String × FieldError) → ETree → ETree × List (String × FieldError)
  | [], acc => (acc, [])
  | (path, e) :: rest, acc =>
    let e2 := attachRef opts path e
    let r := toNestLoop ns opts rest (toNestStep ns acc path e2)
    (r.1, (path, e2) :: r.2)

/-- Source `toNestErrors` (src/unnamed/part_000, lines 12-36) together with the
final state of the caller's error records.  The input error mapping is a JS
object, modelled as an association list in enumeration order with unique keys;
`options.names || Object.keys(errors)` supplies the names checked by
`isNameInFieldArray`.  The `validateFieldsNatively` call is a DOM side effect
(see `ResOptions`) and does not touch the data. -/
def toNestErrorsFull (errors : List (String × FieldError)) (opts : ResOptions) :
    ETree × List (String × FieldError) :=
  toNestLoop (opts.names.getD (errors.map Prod.fst)) opts errors JTree.empty

/-- The error tree returned by `toNestErrors`. -/
def toNestErrors (errors : List (String × FieldError)) (opts : ResOptions) : ETree :=
  (toNestErrorsFull errors opts).1

/-- The record found by walking `q` through the tree, if any: the observable
the claims about error placement speak about. -/
def payloadAt {α : Type} (t : JTree α) (q : List String) : Option α :=
  (getSegs t q).bind JTree.payload

/-- One entry of a Joi `ValidationError`'s `details`: its `path` (segments,
with numeric indices already rendered as decimal strings, as `join('.')`
stringifies them), `message` and `type`. -/
structure JoiDetail : Type where
  path : List String
  message : String
  type : String
deriving DecidableEq, Repr

/-- A Joi `ValidationError`, as far as the resolver inspects it: its `details`
array. -/
structure ValidationError : Type where
  details : List JoiDetail
deriving DecidableEq, Repr

/-- The dot-joined path of a detail: `error.path.join('.')`. -/
def dotJoin (path : List String) : String := String.intercalate "." path

/-- Models react-hook-form's `appendErrors(name, validateAllFieldCriteria,
errors, type, message)` (external dependency): when aggregation is on, returns
`{...errors[name], types: {...(errors[name] && errors[name].types ? ... : {}),
[type]: message || true}}`, and otherwise `{}`.  A JS `{}` carries no
`message`/`type` properties; it is rendered as empty strings here, and is
unreachable from `parseErrorSchema`, whose call site guards on the same flag
and has always created the record first. -/
def appendErrors (name : String) (validateAllFieldCriteria : Bool)
    (errors : List (String × FieldError)) (t : String) (message : CriteriaVal) :
    FieldError :=
  if validateAllFieldCriteria then
    let prev := (assocLookup errors name).getD { message := "", type := "" }
    let base :=
      match assocLookup errors name with
      | some fe => fe.types.getD []
      | none => []
    { prev with
      types := some (assocUpdate base t (if truthyCV message then message else .tru)) }
  else { message := "", type := "" }

/-- The first half of a `parseErrorSchema` reduce step (src/joi/src/joi.ts,
lines 14-16): `if (!previous[_path]) previous[_path] = {message, type}`. -/
def ensurePath (previous : List (String × FieldError)) (d : JoiDetail) :
    List (String × FieldError) :=
  match assocLookup previous (dotJoin d.path) with
  | none => previous ++ [(dotJoin d.path, { message := d.message, type := d.type })]
  | some _ => previous

/-- The aggregation half of a reduce step (src/joi/src/joi.ts, lines 18-30),
run when `validateAllFieldCriteria` holds: read the previous per-type entry,
concatenate onto it when truthy, and store the result through `appendErrors`
(whose first argument is the same flag, true on this branch). -/
def criteriaStep (previous : List (String × FieldError)) (d : JoiDetail) :
    List (String × FieldError) :=
  let path := dotJoin d.path
  let cur := (assocLookup previous path).getD { message := "", type := "" }
  let messages := cur.types.bind (fun ts => assocLookup ts d.type)
  let m : CriteriaVal :=
    match messages with
    | some mv => if truthyCV mv then .arr (concatCV mv d.message) else .str d.message
    | none => .str d.message
  assocUpdate previous path (appendErrors path true previous d.type m)

/-- One step of the `error.details.reduce` of `parseErrorSchema`
(src/joi/src/joi.ts, lines 11-33): record the first error per dot-joined path,
and under `validateAllFieldCriteria` aggregate messages per error type. -/
def parseStep (validateAllFieldCriteria : Bool)
    (previous : List (String × FieldError)) (d : JoiDetail) :
    List (String × FieldError) :=
  let previous := ensurePath previous d
  if validateAllFieldCriteria then criteriaStep previous d else previous

/-- Source `parseErrorSchema` (src/joi/src/joi.ts, lines 6-35): flatten the
error details into a record keyed by the dot-joined path; with no details the
result is `{}`. -/
def parseErrorSchema (error : ValidationError) (validateAllFieldCriteria : Bool) :
    List (String × FieldError) :=
  if error.details.isEmpty then []
  else error.details.foldl (parseStep validateAllFieldCriteria) []

/-- The Joi validation options the resolver builds and forwards: `abortEarly`
(the resolver's default sets it false; it also stands for the caller-supplied
options passed through unobserved) and the `context` the resolver merges in
via `Object.assign({}, schemaOptions, { context })`. -/
structure JoiValidationOptions (γ : Type) : Type where
  abortEarly : Bool := false
  context : Option γ := none

/-- The `{value, error}` shape Joi's synchronous `validate` returns, which the
resolver also rebuilds around `validateAsync`. -/
structure JoiResult (α : Type) : Type where
  value : Option α := none
  error : Option ValidationError := none

/-- The external Joi schema, through the two validation entry points the
resolver invokes: `validate` returns a `{value, error}` record and does not
throw (Joi's documented synchronous contract), `validateAsync` resolves with
the coerced value or rejects with a `ValidationError`. -/
structure JoiSchema (α γ : Type) : Type where
  validate : α → JoiValidationOptions γ → JoiResult α
  validateAsync : α → JoiValidationOptions γ → Except ValidationError α

/-- The resolver's own options: `resolverOptions.mode`, compared against the
string `'sync'`; the source default `{}` leaves it absent. -/
structure JoiResolverOptions : Type where
  mode : Option String := none

/-- The `values` component of a resolver outcome: the failure branch returns a
literal empty object `{}`, the success branch returns `result.value` as-is. -/
inductive OutValues (α : Type) : Type where
  | emptyObj : OutValues α
  | value : Option α → OutValues α
deriving DecidableEq, Repr

/-- What the resolver function resolves with: `{values, errors}`. -/
structure ResolverOutcome (α : Type) : Type where
  values : OutValues α
  errors : ETree

/-- The `validateAllFieldCriteria` flag `joiResolver` computes:
`!options.shouldUseNativeValidation && options.criteriaMode === 'all'`. -/
def allCriteriaFlag (options : ResOptions) : Bool :=
  !options.shouldUseNativeValidation && options.criteriaMode == some "all"

/-- The tail of `joiResolver` after the validation result is in hand
(src/joi/src/joi.ts, lines 78-100): a failure is converted through
`parseErrorSchema` and `toNestErrors` with `values: {}`; otherwise the
(possibly coerced) `result.value` is returned with `errors: {}`.  The
`validateFieldsNatively({}, options)` call on success is a DOM side effect
(see `ResOptions`). -/
def joiProcess {α : Type} (result : JoiResult α) (options : ResOptions) :
    ResolverOutcome α :=
  match result.error with
  | some e =>
    { values := OutValues.emptyObj,
      errors := toNestErrors (parseErrorSchema e (allCriteriaFlag options)) options }
  | none => { values := OutValues.value result.value, errors := JTree.empty }

/-- How the async branch of `joiResolver` rebuilds a `{value, error}` record:
`result.value = await ...` on resolution, `result.error = e` on rejection
(the `try`/`catch` of src/joi/src/joi.ts, lines 70-76). -/
def joiAsyncResult {α : Type} (r : Except ValidationError α) : JoiResult α :=
  match r with
  | .ok v => { value := some v, error := none }
  | .error e => { value := none, error := some e }

/-- Source `joiResolver` (src/joi/src/joi.ts, lines 53-101): merge the context
into the schema options, validate synchronously when `resolverOptions.mode ===
'sync'` and otherwise through the awaited `validateAsync` wrapped in
`try`/`catch`, then convert the result. -/
def joiResolver {α γ : Type} (schema : JoiSchema α γ)
    (schemaOptions : JoiValidationOptions γ) (resolverOptions : JoiResolverOptions)
    (values : α) (context : Option γ) (options : ResOptions) : ResolverOutcome α :=
  let mergedOptions := { schemaOptions with context := context }
  let result : JoiResult α :=
    if resolverOptions.mode = some "sync" then
      schema.validate values mergedOptions
    else
      joiAsyncResult (schema.validateAsync values mergedOptions)
  joiProcess result options

/-! ### Association-list lemmas -/

theorem assocLookup_update {β : Type} (l : List (String × β)) (k : String) (v : β)
    (j : String) :
    assocLookup (assocUpdate l k v) j = if k = j then some v else assocLookup l j := by
  induction l with
  | nil => simp [assocUpdate, assocLookup]
  | cons hd tl ih =>
    obtain ⟨k1, v1⟩ := hd
    by_cases h1 : k1 = k
    · subst h1
      by_cases h2 : k1 = j
      · subst h2; simp [assocUpdate, assocLookup]
      · simp [assocUpdate, assocLookup, h2]
    · by_cases h2 : k1 = j
      · subst h2
        have hkj : ¬ k = k1 := fun h => h1 h.symm
        simp [assocUpdate, assocLookup, h1, hkj]
      · simp [assocUpdate, assocLookup, h1, h2, ih]

theorem keys_assocUpdate {β : Type} (l : List (String × β)) (k : String) (v : β) :
    (assocUpdate l k v).map Prod.fst =
      if (assocLookup l k).isSome then l.map Prod.fst else l.map Prod.fst ++ [k] := by
  induction l with
  | nil => simp [assocUpdate, assocLookup]
  | cons hd tl ih =>
    obtain ⟨k1, v1⟩ := hd
    by_cases h1 : k1 = k
    · subst h1
      simp [assocUpdate, assocLookup]
    · have h1c : ¬ k = k1 := fun h => h1 h.symm
      simp [assocUpdate, assocLookup, h1, h1c, ih]
      by_cases h2 : (assocLookup tl k).isSome <;> simp [h2]

theorem assocLookup_append {β : Type} (l1 l2 : List (String × β)) (j : String) :
    assocLookup (l1 ++ l2) j =
      match assocLookup l1 j with
      | some v => some v
      | none => assocLookup l2 j := by
  induction l1 with
  | nil => simp [assocLookup]
  | cons hd tl ih =>
    obtain ⟨k1, v1⟩ := hd
    by_cases h : k1 = j <;> simp [assocLookup, h, ih]

theorem assocLookup_none_of_not_mem {β : Type} (l : List (String × β)) (j : String)
    (h : j ∉ l.map Prod.fst) : assocLookup l j = none := by
  induction l with
  | nil => rfl
  | cons hd tl ih =>
    obtain ⟨k1, v1⟩ := hd
    simp only [List.map_cons, List.mem_cons] at h
    push_neg at h
    have : ¬ k1 = j := fun hh => h.1 hh.symm
    simp [assocLookup, this, ih h.2]

theorem assocLookup_isSome_iff_mem {β : Type} (l : List (String × β)) (j : String) :
    (assocLookup l j).isSome = true ↔ j ∈ l.map Prod.fst := by
  induction l with
  | nil => simp [assocLookup]
  | cons hd tl ih =>
    obtain ⟨k1, v1⟩ := hd
    by_cases h : k1 = j
    · subst h; simp [assocLookup]
    · have : ¬ j = k1 := fun hh => h hh.symm
      simp [assocLookup, h, this, ih]

/-! ### Tree navigation lemmas -/

theorem JTree.payload_mk {α : Type} (p : Option α) (ch : List (String × JTree α)) :
    (JTree.mk p ch).payload = p := rfl

theorem JTree.children_mk {α : Type} (p : Option α) (ch : List (String × JTree α)) :
    (JTree.mk p ch).children = ch := rfl

theorem payloadAt_nil {α : Type} (t : JTree α) : payloadAt t [] = t.payload := rfl

theorem payloadAt_cons {α : Type} (t : JTree α) (k : String) (ks : List String) :
    payloadAt t (k :: ks) =
      match assocLookup t.children k with
      | some c => payloadAt c ks
      | none => none := by
  obtain ⟨pl, ch⟩ := t
  cases hc : assocLookup ch k with
  | some c => simp [payloadAt, getSegs, JTree.children_mk, hc]
  | none => simp [payloadAt, getSegs, JTree.children_mk, hc]

theorem payloadAt_cons_some {α : Type} {t : JTree α} {k : String} {c : JTree α}
    (ks : List String) (h : assocLookup t.children k = some c) :
    payloadAt t (k :: ks) = payloadAt c ks := by
  rw [payloadAt_cons, h]

theorem payloadAt_cons_none {α : Type} {t : JTree α} {k : String}
    (ks : List String) (h : assocLookup t.children k = none) :
    payloadAt t (k :: ks) = none := by
  rw [payloadAt_cons, h]

theorem payloadAt_empty {α : Type} (q : List String) :
    payloadAt (JTree.empty : JTree α) q = none := by
  cases q with
  | nil => rfl
  | cons k ks => simp [payloadAt_cons, JTree.empty, assocLookup]

theorem getSegs_append {α : Type} (t : JTree α) (a b : List String) :
    getSegs t (a ++ b) = (getSegs t a).bind (fun s => getSegs s b) := by
  induction a generalizing t with
  | nil => simp [getSegs]
  | cons k ks ih =>
    obtain ⟨pl, ch⟩ := t
    cases hc : assocLookup ch k with
    | none => simp [getSegs, JTree.children_mk, hc]
    | some c => simp [getSegs, JTree.children_mk, hc, ih]

theorem payloadAt_append {α : Type} (t : JTree α) (a b : List String) :
    payloadAt t (a ++ b) =
      match getSegs t a with
      | some s => payloadAt s b
      | none => none := by
  simp only [payloadAt, getSegs_append]
  cases getSegs t a <;> rfl

/-! ### Interaction of `setSegs` with `payloadAt` -/

theorem setSegs_nil {α : Type} (t : JTree α) (v : JTree α) : setSegs t [] v = t := rfl

theorem setSegs_forbidden {α : Type} (t v : JTree α) (k : String) (ks : List String)
    (h : forbiddenKey k = true) : setSegs t (k :: ks) v = t := by
  simp [setSegs, h]

theorem setSegs_single {α : Type} (t v : JTree α) (k : String)
    (h : forbiddenKey k = false) :
    setSegs t [k] v = JTree.mk t.payload (assocUpdate t.children k v) := by
  simp [setSegs, h]

theorem setSegs_cons {α : Type} (t v : JTree α) (k k2 : String) (ks : List String)
    (h : forbiddenKey k = false) :
    setSegs t (k :: k2 :: ks) v =
      JTree.mk t.payload
        (assocUpdate t.children k
          (setSegs ((assocLookup t.children k).getD JTree.empty) (k2 :: ks) v)) := by
  simp [setSegs, h]

theorem payload_setSegs {α : Type} (t v : JTree α) (p : List String) :
    (setSegs t p v).payload = t.payload := by
  cases p with
  | nil => rfl
  | cons k ks =>
    by_cases h : forbiddenKey k = true
    · simp [setSegs_forbidden _ _ _ _ h]
    · have h' : forbiddenKey k = false := by simpa using h
      cases ks with
      | nil => simp [setSegs_single _ _ _ h', JTree.payload_mk]
      | cons k2 ks' => simp [setSegs_cons _ _ _ _ _ h', JTree.payload_mk]

theorem isPrefix_cons_iff {a b : String} {l1 l2 : List String} :
    (a :: l1 <+: b :: l2) ↔ a = b ∧ (l1 <+: l2) := by
  constructor
  · rintro ⟨t, ht⟩
    injection ht with h1 h2
    exact ⟨h1, t, h2⟩
  · rintro ⟨rfl, t, ht⟩
    exact ⟨t, by rw [List.cons_append, ht]⟩

theorem payloadAt_setSegs_outside {α : Type} (v : JTree α) :
    ∀ (p : List String) (t : JTree α) (q : List String), ¬ (p <+: q) →
      payloadAt (setSegs t p v) q = payloadAt t q := by
  intro p
  induction p with
  | nil => intro t q h; exact absurd (show ([] : List String) <+: q from ⟨q, rfl⟩) h
  | cons k ks ih =>
    intro t q h
    by_cases hf : forbiddenKey k = true
    · simp [setSegs_forbidden _ _ _ _ hf]
    · have hf' : forbiddenKey k = false := by simpa using hf
      cases q with
      | nil =>
        cases ks with
        | nil =>
          simp [setSegs_single _ _ _ hf', payloadAt_nil, JTree.payload_mk]
        | cons k2 ks' =>
          simp [setSegs_cons _ _ _ _ _ hf', payloadAt_nil, JTree.payload_mk]
      | cons j qs =>
        by_cases hjk : k = j
        · subst hjk
          have hks : ¬ (ks <+: qs) := by
            intro hpre
            exact h (isPrefix_cons_iff.mpr ⟨rfl, hpre⟩)
          cases ks with
          | nil => exact absurd (show ([] : List String) <+: qs from ⟨qs, rfl⟩) hks
          | cons k2 ks' =>
            have ih2 : ∀ s : JTree α,
                payloadAt (setSegs s (k2 :: ks') v) qs = payloadAt s qs :=
              fun s => ih s qs hks
            rw [setSegs_cons _ _ _ _ _ hf']
            rw [payloadAt_cons_some qs
              (show assocLookup
                  (JTree.mk t.payload
                    (assocUpdate t.children k
                      (setSegs ((assocLookup t.children k).getD JTree.empty)
                        (k2 :: ks') v))).children k = some _ by
                rw [JTree.children_mk, assocLookup_update, if_pos rfl])]
            rw [ih2]
            cases hc : assocLookup t.children k with
            | some c => rw [payloadAt_cons_some qs hc]; exact rfl
            | none => rw [payloadAt_cons_none qs hc]; exact payloadAt_empty qs
        · cases ks with
          | nil =>
            rw [setSegs_single _ _ _ hf', payloadAt_cons, payloadAt_cons]
            rw [JTree.children_mk, assocLookup_update, if_neg hjk]
          | cons k2 ks' =>
            rw [setSegs_cons _ _ _ _ _ hf', payloadAt_cons, payloadAt_cons]
            rw [JTree.children_mk, assocLookup_update, if_neg hjk]

theorem payloadAt_setSegs_below {α : Type} (v : JTree α) :
    ∀ (p : List String) (t : JTree α) (r : List String), p ≠ [] →
      (∀ k ∈ p, forbiddenKey k = false) →
      payloadAt (setSegs t p v) (p ++ r) = payloadAt v r := by
  intro p
  induction p with
  | nil => intro t r h; exact absurd rfl h
  | cons k ks ih =>
    intro t r _ hforb
    have hf : forbiddenKey k = false := hforb k (by simp)
    cases ks with
    | nil =>
      rw [setSegs_single _ _ _ hf]
      simp only [List.cons_append, List.nil_append]
      rw [payloadAt_cons, JTree.children_mk, assocLookup_update, if_pos rfl]
    | cons k2 ks' =>
      rw [setSegs_cons _ _ _ _ _ hf]
      simp only [List.cons_append]
      rw [payloadAt_cons, JTree.children_mk, assocLookup_update, if_pos rfl]
      exact ih _ _ (by simp) (fun x hx => hforb x (by simp [hx]))

/-! ### Segment-shaped keys

Keys produced by `setPath` never contain the characters `stringToPath` strips
or splits on; trees built by the `toNestErrors` loop only carry such keys, so
the literal-property fallback of `get` cannot alias a walked path. -/

/-- A character that can appear in a `setPath` segment: none of the characters
`stringToPath` removes or splits on. -/
def segOKchar (c : Char) : Bool :=
  !(c == '.' || c == '[' || c == ']' || c == quoteChar || c == apostropheChar || c == '|')

/-- A string usable as a child key by the `set` walk. -/
def segOK (s : String) : Bool := s.toList.all segOKchar

mutual

/-- All keys of a tree, recursively, are `setPath` segments. -/
def keysOK {α : Type} : JTree α → Bool
  | .mk _ ch => keysOKList ch

/-- All keys of a child list, recursively, are `setPath` segments. -/
def keysOKList {α : Type} : List (String × JTree α) → Bool
  | [] => true
  | (k, c) :: rest => segOK k && keysOK c && keysOKList rest

end

theorem beq_false_of_ne {c d : Char} (h : c ≠ d) : (c == d) = false :=
  beq_eq_false_iff_ne.mpr h

theorem or6_false {a b c d e f : Bool} (h : (a || b || c || d || e || f) = false) :
    a = false ∧ b = false ∧ c = false ∧ d = false ∧ e = false ∧ f = false := by
  simp only [Bool.or_eq_false_iff] at h
  exact ⟨h.1.1.1.1.1, h.1.1.1.1.2, h.1.1.1.2, h.1.1.2, h.1.2, h.2⟩

theorem or4_false {a b c d : Bool} (h : (a || b || c || d) = false) :
    a = false ∧ b = false ∧ c = false ∧ d = false := by
  simp only [Bool.or_eq_false_iff] at h
  exact ⟨h.1.1.1, h.1.1.2, h.1.2, h.2⟩

theorem segOKchar_parts (c : Char) (h : segOKchar c = true) :
    (c == '.') = false ∧ (c == '[') = false ∧ (c == ']') = false ∧
      (c == quoteChar) = false ∧ (c == apostropheChar) = false ∧ (c == '|') = false := by
  unfold segOKchar at h
  rw [Bool.not_eq_true'] at h
  exact or6_false h

theorem segOKchar_build (c : Char)
    (h1 : (c == '.') = false) (h2 : (c == '[') = false) (h3 : (c == ']') = false)
    (h4 : (c == quoteChar) = false) (h5 : (c == apostropheChar) = false)
    (h6 : (c == '|') = false) : segOKchar c = true := by
  unfold segOKchar
  rw [Bool.not_eq_true']
  simp [h1, h2, h3, h4, h5, h6]

theorem wordChar_segOKchar (c : Char) (h : isWordChar c = true) : segOKchar c = true := by
  have h1 : c ≠ '.' := by intro e; rw [e] at h; exact absurd h (by decide)
  have h2 : c ≠ '[' := by intro e; rw [e] at h; exact absurd h (by decide)
  have h3 : c ≠ ']' := by intro e; rw [e] at h; exact absurd h (by decide)
  have h4 : c ≠ quoteChar := by intro e; rw [e] at h; exact absurd h (by decide)
  have h5 : c ≠ apostropheChar := by intro e; rw [e] at h; exact absurd h (by decide)
  have h6 : c ≠ '|' := by intro e; rw [e] at h; exact absurd h (by decide)
  exact segOKchar_build c (beq_false_of_ne h1) (beq_false_of_ne h2)
    (beq_false_of_ne h3) (beq_false_of_ne h4) (beq_false_of_ne h5) (beq_false_of_ne h6)

theorem splitGroups_chars (isSep : Char → Bool) :
    ∀ (l : List Char) (g : List Char) (c : Char),
      g ∈ splitGroups isSep l → c ∈ g → c ∈ l ∧ isSep c = false := by
  intro l
  induction l with
  | nil =>
    intro g c hg hc
    simp [splitGroups] at hg
    subst hg
    exact absurd hc (by simp)
  | cons c0 cs ih =>
    intro g c hg hc
    by_cases hs : isSep c0 = true
    · simp only [splitGroups, hs, if_pos] at hg
      rcases List.mem_cons.mp hg with h | h
      · subst h; exact absurd hc (by simp)
      · have := ih g c h hc
        exact ⟨List.mem_cons_of_mem _ this.1, this.2⟩
    · have hs' : isSep c0 = false := by simpa using hs
      simp only [splitGroups, hs', Bool.false_eq_true, if_neg, not_false_iff] at hg
      cases hr : splitGroups isSep cs with
      | nil =>
        rw [hr] at hg
        simp only [List.mem_singleton] at hg
        subst hg
        have hcc : c = c0 := by simpa using hc
        subst hcc
        exact ⟨by simp, hs'⟩
      | cons g0 gs =>
        rw [hr] at hg
        rcases List.mem_cons.mp hg with h | h
        · subst h
          rcases List.mem_cons.mp hc with h2 | h2
          · subst h2; exact ⟨by simp, hs'⟩
          · have := ih g0 c (by rw [hr]; simp) h2
            exact ⟨List.mem_cons_of_mem _ this.1, this.2⟩
        · have := ih g c (by rw [hr]; simp [h]) hc
          exact ⟨List.mem_cons_of_mem _ this.1, this.2⟩

theorem mem_compactSplit {isSep : Char → Bool} {l : List Char} {x : String}
    (hx : x ∈ compactSplit isSep l) :
    ∃ g ∈ splitGroups isSep l, String.mk g = x := by
  simp only [compactSplit, List.mem_filter, List.mem_map] at hx
  obtain ⟨⟨g, hg, he⟩, _⟩ := hx
  exact ⟨g, hg, he⟩

theorem stringToPath_segOK (s : String) (k : String) (hk : k ∈ stringToPath s) :
    segOK k = true := by
  obtain ⟨g, hg, he⟩ := mem_compactSplit hk
  subst he
  simp only [segOK, List.all_eq_true]
  intro c hc
  have hc' : c ∈ g := by simpa [String.mk] using hc
  have hboth := splitGroups_chars _ _ g c hg hc'
  have hmem := hboth.1
  have hsep := hboth.2
  have hkeep : (!(c == quoteChar || c == '|' || c == apostropheChar || c == ']')) = true :=
    (List.mem_filter.mp hmem).2
  rw [Bool.not_eq_true'] at hkeep
  obtain ⟨e4, e6, e5, e3⟩ := or4_false hkeep
  have h1 : (c == '.') = false := (Bool.or_eq_false_iff.mp hsep).1
  have h2 : (c == '[') = false := (Bool.or_eq_false_iff.mp hsep).2
  exact segOKchar_build c h1 h2 e3 e4 e5 e6

theorem setPath_segOK (s : String) (k : String) (hk : k ∈ setPath s) : segOK k = true := by
  unfold setPath at hk
  by_cases hw : isKeyName s = true
  · rw [if_pos hw] at hk
    simp only [List.mem_singleton] at hk
    subst hk
    simp only [segOK, List.all_eq_true]
    intro c hc
    exact wordChar_segOKchar c ((List.all_eq_true.mp hw) c hc)
  · rw [if_neg hw] at hk
    exact stringToPath_segOK s k hk

theorem splitGroups_no_sep (isSep : Char → Bool) :
    ∀ (l : List Char), (∀ c ∈ l, isSep c = false) → splitGroups isSep l = [l] := by
  intro l
  induction l with
  | nil => intro _; rfl
  | cons c0 cs ih =>
    intro h
    have h0 : isSep c0 = false := h c0 (by simp)
    have hr : splitGroups isSep cs = [cs] := ih (fun c hc => h c (by simp [hc]))
    simp [splitGroups, h0, hr]

theorem string_mk_toList (s : String) : String.mk s.toList = s := rfl

theorem segOK_setPath (P : String) (h : segOK P = true) : setPath P = [P] := by
  unfold setPath
  by_cases hw : isKeyName P = true
  · rw [if_pos hw]
  · rw [if_neg hw]
    have hP : P ≠ "" := by
      intro e; subst e; exact hw (by decide)
    have hchars : ∀ c ∈ P.toList, segOKchar c = true := List.all_eq_true.mp h
    unfold stringToPath
    have hfilter :
        P.toList.filter
          (fun c => !(c == quoteChar || c == '|' || c == apostropheChar || c == ']')) =
          P.toList := by
      apply List.filter_eq_self.mpr
      intro c hc
      obtain ⟨_, _, e3, e4, e5, e6⟩ := segOKchar_parts c (hchars c hc)
      rw [Bool.not_eq_true']
      simp [e3, e4, e5, e6]
    rw [hfilter]
    have hnosep : ∀ c ∈ P.toList, (c == '.' || c == '[') = false := by
      intro c hc
      obtain ⟨e1, e2, _, _, _, _⟩ := segOKchar_parts c (hchars c hc)
      simp [e1, e2]
    rw [compactSplit, splitGroups_no_sep _ _ hnosep]
    have hne : (String.mk P.toList != "") = true := by
      rw [string_mk_toList]
      simpa using hP
    simp [string_mk_toList, hne]
    exact hP

/-! ### `keysOK` preservation and the `get` fallback -/

theorem keysOK_mk {α : Type} (p : Option α) (ch : List (String × JTree α)) :
    keysOK (JTree.mk p ch) = keysOKList ch := rfl

theorem keysOK_empty {α : Type} : keysOK (JTree.empty : JTree α) = true := rfl

theorem keysOKList_lookup {α : Type} :
    ∀ (ch : List (String × JTree α)) (k : String) (c : JTree α),
      keysOKList ch = true → assocLookup ch k = some c →
      segOK k = true ∧ keysOK c = true := by
  intro ch
  induction ch with
  | nil => intro k c _ hc; simp [assocLookup] at hc
  | cons hd tl ih =>
    intro k c hok hc
    obtain ⟨k1, c1⟩ := hd
    simp only [keysOKList, Bool.and_eq_true] at hok
    by_cases h : k1 = k
    · subst h
      simp only [assocLookup, if_true, eq_self_iff_true, Option.some.injEq] at hc
      subst hc
      exact ⟨hok.1.1, hok.1.2⟩
    · simp only [assocLookup, if_neg h] at hc
      exact ih k c hok.2 hc

theorem keysOK_lookup_none {α : Type} (t : JTree α) (k : String)
    (hok : keysOK t = true) (hseg : segOK k = false) :
    assocLookup t.children k = none := by
  obtain ⟨pl, ch⟩ := t
  cases hc : assocLookup ch k with
  | none => exact hc
  | some c =>
    have hseg2 := keysOKList_lookup ch k c (by rwa [keysOK_mk] at hok) hc
    rw [hseg2.1] at hseg
    exact absurd hseg (by simp)

theorem keysOKList_update {α : Type} :
    ∀ (ch : List (String × JTree α)) (k : String) (v : JTree α),
      keysOKList ch = true → segOK k = true → keysOK v = true →
      keysOKList (assocUpdate ch k v) = true := by
  intro ch
  induction ch with
  | nil => intro k v _ hk hv; simp [assocUpdate, keysOKList, hk, hv]
  | cons hd tl ih =>
    intro k v hok hk hv
    obtain ⟨k1, c1⟩ := hd
    simp only [keysOKList, Bool.and_eq_true] at hok
    by_cases h : k1 = k
    · subst h
      simp [assocUpdate, keysOKList, hk, hv, hok.2]
    · simp [assocUpdate, h, keysOKList, hok.1.1, hok.1.2, ih k v hok.2 hk hv]

theorem keysOK_setSegs {α : Type} (v : JTree α) :
    ∀ (p : List String) (t : JTree α), keysOK t = true →
      (∀ k ∈ p, segOK k = true) → keysOK v = true →
      keysOK (setSegs t p v) = true := by
  intro p
  induction p with
  | nil => intro t h _ _; exact h
  | cons k ks ih =>
    intro t ht hseg hv
    by_cases hf : forbiddenKey k = true
    · rw [setSegs_forbidden _ _ _ _ hf]; exact ht
    · have hf' : forbiddenKey k = false := by simpa using hf
      obtain ⟨pl, ch⟩ := t
      have hch : keysOKList ch = true := by rwa [keysOK_mk] at ht
      cases ks with
      | nil =>
        rw [setSegs_single _ _ _ hf', keysOK_mk, JTree.children_mk]
        exact keysOKList_update ch k v hch (hseg k (by simp)) hv
      | cons k2 ks' =>
        rw [setSegs_cons _ _ _ _ _ hf', keysOK_mk, JTree.children_mk]
        apply keysOKList_update ch k _ hch (hseg k (by simp))
        apply ih
        · cases hc : assocLookup ch k with
          | none => simp [hc, keysOK_empty]
          | some c =>
            have := keysOKList_lookup ch k c hch (by simpa [JTree.children_mk] using hc)
            simpa [hc] using this.2
        · intro x hx; exact hseg x (by simp [hx])
        · exact hv

theorem keysOK_getSegs {α : Type} :
    ∀ (p : List String) (t s : JTree α), keysOK t = true →
      getSegs t p = some s → keysOK s = true := by
  intro p
  induction p with
  | nil =>
    intro t s ht hs
    simp only [getSegs, Option.some.injEq] at hs
    subst hs; exact ht
  | cons k ks ih =>
    intro t s ht hs
    obtain ⟨pl, ch⟩ := t
    cases hc : assocLookup ch k with
    | none => simp [getSegs, JTree.children_mk, hc] at hs
    | some c =>
      simp only [getSegs, JTree.children_mk, hc] at hs
      have hcok := (keysOKList_lookup ch k c (by rwa [keysOK_mk] at ht) hc).2
      exact ih c s hcok hs

theorem getTree_empty_path {α : Type} (t : JTree α) : getTree t "" = none := rfl

theorem getTree_eq_of_segs_nil {α : Type} {t : JTree α} {P : String}
    (hP : P ≠ "") (hsegs : getPathSegs P = []) :
    getTree t P = assocLookup t.children P := by
  unfold getTree
  rw [if_neg hP, hsegs]

theorem getTree_eq_of_nav_some {α : Type} {t : JTree α} {P : String}
    {k : String} {ks : List String} {s : JTree α}
    (hP : P ≠ "") (hsegs : getPathSegs P = k :: ks)
    (hn : getSegs t (k :: ks) = some s) : getTree t P = some s := by
  unfold getTree
  rw [if_neg hP, hsegs]
  show (match getSegs t (k :: ks) with
    | some r => some r
    | none => assocLookup t.children P) = some s
  rw [hn]

theorem getTree_eq_of_nav_none {α : Type} {t : JTree α} {P : String}
    {k : String} {ks : List String}
    (hP : P ≠ "") (hsegs : getPathSegs P = k :: ks)
    (hn : getSegs t (k :: ks) = none) :
    getTree t P = assocLookup t.children P := by
  unfold getTree
  rw [if_neg hP, hsegs]
  show (match getSegs t (k :: ks) with
    | some r => some r
    | none => assocLookup t.children P) = assocLookup t.children P
  rw [hn]

theorem keysOK_lookup {α : Type} (t : JTree α) (k : String) (c : JTree α)
    (ht : keysOK t = true) (hc : assocLookup t.children k = some c) :
    keysOK c = true := by
  obtain ⟨pl, ch⟩ := t
  exact (keysOKList_lookup ch k c (by rwa [keysOK_mk] at ht) hc).2

theorem keysOK_getTree_getD {α : Type} (t : JTree α) (P : String)
    (ht : keysOK t = true) :
    keysOK ((getTree t P).getD JTree.empty) = true := by
  by_cases hP : P = ""
  · subst hP
    rw [getTree_empty_path]
    exact keysOK_empty
  · cases hsegs : getPathSegs P with
    | nil =>
      rw [getTree_eq_of_segs_nil hP hsegs]
      cases hc : assocLookup t.children P with
      | none => exact keysOK_empty
      | some c =>
        simp only [Option.getD_some]
        exact keysOK_lookup t P c ht hc
    | cons k ks =>
      cases hn : getSegs t (k :: ks) with
      | some s =>
        rw [getTree_eq_of_nav_some hP hsegs hn]
        simp only [Option.getD_some]
        exact keysOK_getSegs (k :: ks) t s ht hn
      | none =>
        rw [getTree_eq_of_nav_none hP hsegs hn]
        cases hc : assocLookup t.children P with
        | none => exact keysOK_empty
        | some c =>
          simp only [Option.getD_some]
          exact keysOK_lookup t P c ht hc

/-- The object `Object.assign({}, get(fieldErrors, path))` copies: under a
normalised path (`get` and `set` split it the same way) in a segment-keyed
tree, it is exactly the subtree at the path's segments; walking `r` below the
copy reads what the original tree holds at `setPath path ++ r`. -/
theorem payloadAt_getTree_getD {α : Type} (t : JTree α) (P : String)
    (ht : keysOK t = true) (hp : getPathSegs P = setPath P) (hne : setPath P ≠ []) :
    ∀ r, payloadAt ((getTree t P).getD JTree.empty) r = payloadAt t (setPath P ++ r) := by
  intro r
  have hPne : P ≠ "" := by
    intro e; subst e
    exact absurd hp (by decide)
  cases hsp : setPath P with
  | nil => exact absurd hsp hne
  | cons k ks =>
    have hsegs : getPathSegs P = k :: ks := by rw [hp, hsp]
    cases hn : getSegs t (k :: ks) with
    | some s =>
      rw [getTree_eq_of_nav_some hPne hsegs hn]
      simp only [Option.getD_some]
      rw [payloadAt_append, hn]
    | none =>
      have hnone : assocLookup t.children P = none := by
        by_cases hseg : segOK P = true
        · have h1 : setPath P = [P] := segOK_setPath P hseg
          rw [hsp] at h1
          have hk : k = P := (List.cons_eq_cons.mp h1).1
          have hks : ks = [] := (List.cons_eq_cons.mp h1).2
          subst hk
          subst hks
          cases hc : assocLookup t.children k with
          | none => rfl
          | some c =>
            obtain ⟨pl, ch⟩ := t
            simp only [JTree.children_mk] at hc
            rw [show getSegs (JTree.mk pl ch) [k] = some c by
              simp [getSegs, JTree.children_mk, hc]] at hn
            exact absurd hn (by simp)
        · exact keysOK_lookup_none t P ht (by simpa using hseg)
      rw [getTree_eq_of_nav_none hPne hsegs hn, hnone]
      simp only [Option.getD_none]
      rw [payloadAt_empty, payloadAt_append, hn]

/-! ### Behaviour of one `toNestErrors` loop iteration -/

theorem setPath_root_eq : setPath "root" = ["root"] := rfl

theorem forbiddenKey_root : forbiddenKey "root" = false := rfl

theorem keysOK_leafE (e : FieldError) : keysOK (leafE e) = true := rfl

theorem payloadAt_leafE_nil (e : FieldError) : payloadAt (leafE e) [] = some e := rfl

theorem toNestStep_of_setPath_nil (ns : List String) (acc : ETree) (p : String)
    (e : FieldError) (h : setPath p = []) : toNestStep ns acc p e = acc := by
  unfold toNestStep setTree
  rw [h]
  by_cases harr : isNameInFieldArray ns p <;> simp [harr, setSegs_nil]

theorem payloadAt_toNestStep_other (ns : List String) (acc : ETree) (p : String)
    (e : FieldError) (q : List String) (hq : ¬ (setPath p <+: q)) :
    payloadAt (toNestStep ns acc p e) q = payloadAt acc q := by
  unfold toNestStep setTree
  by_cases harr : isNameInFieldArray ns p
  · simp only [harr, if_true]
    exact payloadAt_setSegs_outside _ _ _ _ hq
  · simp only [harr, if_false, Bool.false_eq_true]
    exact payloadAt_setSegs_outside _ _ _ _ hq

theorem payloadAt_toNestStep_self (ns : List String) (acc : ETree) (p : String)
    (e : FieldError) (harr : isNameInFieldArray ns p = false)
    (hne : setPath p ≠ []) (hforb : ∀ k ∈ setPath p, forbiddenKey k = false) :
    payloadAt (toNestStep ns acc p e) (setPath p) = some e := by
  unfold toNestStep setTree
  rw [harr]
  simp only [Bool.false_eq_true, if_false]
  have h := payloadAt_setSegs_below (leafE e) (setPath p) acc [] hne hforb
  rw [List.append_nil] at h
  rw [h, payloadAt_leafE_nil]

theorem payloadAt_toNestStep_root (ns : List String) (acc : ETree) (p : String)
    (e : FieldError) (harr : isNameInFieldArray ns p = true)
    (hne : setPath p ≠ []) (hforb : ∀ k ∈ setPath p, forbiddenKey k = false) :
    payloadAt (toNestStep ns acc p e) (setPath p ++ ["root"]) = some e := by
  unfold toNestStep setTree
  rw [harr]
  simp only [if_true]
  rw [payloadAt_setSegs_below _ (setPath p) acc ["root"] hne hforb]
  rw [setPath_root_eq]
  have h := payloadAt_setSegs_below (leafE e)
    ["root"] ((getTree acc p).getD JTree.empty) [] (by simp)
    (by intro k hk; simp at hk; subst hk; exact forbiddenKey_root)
  rw [List.append_nil] at h
  rw [h, payloadAt_leafE_nil]

theorem payloadAt_toNestStep_sibling (ns : List String) (acc : ETree) (p : String)
    (e : FieldError) (harr : isNameInFieldArray ns p = true)
    (hk : keysOK acc = true) (hp : getPathSegs p = setPath p)
    (hne : setPath p ≠ []) (hforb : ∀ k ∈ setPath p, forbiddenKey k = false)
    (k : String) (r : List String) (hkroot : k ≠ "root") :
    payloadAt (toNestStep ns acc p e) (setPath p ++ k :: r) =
      payloadAt acc (setPath p ++ k :: r) := by
  unfold toNestStep setTree
  rw [harr]
  simp only [if_true]
  rw [payloadAt_setSegs_below _ (setPath p) acc (k :: r) hne hforb]
  rw [setPath_root_eq]
  rw [payloadAt_setSegs_outside _ _ _ _ (by
    intro hpre
    exact hkroot (isPrefix_cons_iff.mp hpre).1.symm)]
  exact payloadAt_getTree_getD acc p hk hp hne (k :: r)

theorem keysOK_toNestStep (ns : List String) (acc : ETree) (p : String)
    (e : FieldError) (hk : keysOK acc = true) :
    keysOK (toNestStep ns acc p e) = true := by
  unfold toNestStep setTree
  by_cases harr : isNameInFieldArray ns p
  · simp only [harr, if_true]
    apply keysOK_setSegs _ _ _ hk (setPath_segOK p)
    rw [setPath_root_eq]
    apply keysOK_setSegs _ _ _ (keysOK_getTree_getD acc p hk)
      (by intro x hx; simp at hx; subst hx; decide)
    exact keysOK_leafE e
  · simp only [harr, if_false, Bool.false_eq_true]
    exact keysOK_setSegs _ _ _ hk (setPath_segOK p) (keysOK_leafE e)

/-! ### Behaviour of the whole loop -/

theorem toNestLoop_fst_nil (ns : List String) (opts : ResOptions) (acc : ETree) :
    (toNestLoop ns opts [] acc).1 = acc := rfl

theorem toNestLoop_fst_cons (ns : List String) (opts : ResOptions) (p : String)
    (e : FieldError) (rest : List (String × FieldError)) (acc : ETree) :
    (toNestLoop ns opts ((p, e) :: rest) acc).1 =
      (toNestLoop ns opts rest (toNestStep ns acc p (attachRef opts p e))).1 := rfl

theorem toNestLoop_fst_append (ns : List String) (opts : ResOptions)
    (a b : List (String × FieldError)) (acc : ETree) :
    (toNestLoop ns opts (a ++ b) acc).1 =
      (toNestLoop ns opts b (toNestLoop ns opts a acc).1).1 := by
  induction a generalizing acc with
  | nil => rfl
  | cons hd tl ih =>
    obtain ⟨p, e⟩ := hd
    rw [List.cons_append, toNestLoop_fst_cons, toNestLoop_fst_cons, ih]

theorem toNestLoop_fst_preserve (ns : List String) (opts : ResOptions)
    (s : List String) :
    ∀ (l : List (String × FieldError)) (acc : ETree),
      (∀ pe ∈ l, ¬ (setPath pe.1 <+: s)) →
      payloadAt (toNestLoop ns opts l acc).1 s = payloadAt acc s := by
  intro l
  induction l with
  | nil => intro acc _; rfl
  | cons hd tl ih =>
    intro acc h
    obtain ⟨p, e⟩ := hd
    rw [toNestLoop_fst_cons, ih _ (fun pe hpe => h pe (by simp [hpe]))]
    exact payloadAt_toNestStep_other ns acc p _ s (h (p, e) (by simp))

theorem toNestLoop_fst_keysOK (ns : List String) (opts : ResOptions) :
    ∀ (l : List (String × FieldError)) (acc : ETree), keysOK acc = true →
      keysOK (toNestLoop ns opts l acc).1 = true := by
  intro l
  induction l with
  | nil => intro acc h; exact h
  | cons hd tl ih =>
    intro acc h
    obtain ⟨p, e⟩ := hd
    rw [toNestLoop_fst_cons]
    exact ih _ (keysOK_toNestStep ns acc p _ h)

theorem toNestLoop_snd (ns : List String) (opts : ResOptions) :
    ∀ (l : List (String × FieldError)) (acc : ETree),
      (toNestLoop ns opts l acc).2 =
        l.map (fun pe => (pe.1, attachRef opts pe.1 pe.2)) := by
  intro l
  induction l with
  | nil => intro acc; rfl
  | cons hd tl ih =>
    intro acc
    obtain ⟨p, e⟩ := hd
    simp only [toNestLoop, ih, List.map_cons]

/-! ### Provenance: every record in the built tree is a ref-attached input -/

theorem payloadAt_setSegs_provenance {α : Type} (v : JTree α) :
    ∀ (p : List String) (t : JTree α) (q : List String) (a : α),
      payloadAt (setSegs t p v) q = some a →
      (∃ r, payloadAt v r = some a) ∨ (∃ q2, payloadAt t q2 = some a) := by
  intro p
  induction p with
  | nil =>
    intro t q a h
    exact Or.inr ⟨q, h⟩
  | cons k ks ih =>
    intro t q a h
    by_cases hf : forbiddenKey k = true
    · rw [setSegs_forbidden _ _ _ _ hf] at h
      exact Or.inr ⟨q, h⟩
    · have hf' : forbiddenKey k = false := by simpa using hf
      cases ks with
      | nil =>
        rw [setSegs_single _ _ _ hf'] at h
        cases q with
        | nil =>
          rw [payloadAt_nil, JTree.payload_mk] at h
          exact Or.inr ⟨[], by rw [payloadAt_nil]; exact h⟩
        | cons j qs =>
          by_cases hjk : k = j
          · subst hjk
            rw [payloadAt_cons_some qs
              (show assocLookup (JTree.mk t.payload (assocUpdate t.children k v)).children k
                  = some v by
                rw [JTree.children_mk, assocLookup_update, if_pos rfl])] at h
            exact Or.inl ⟨qs, h⟩
          · rw [payloadAt_cons, JTree.children_mk, assocLookup_update, if_neg hjk] at h
            rw [← payloadAt_cons] at h
            exact Or.inr ⟨j :: qs, h⟩
      | cons k2 ks' =>
        rw [setSegs_cons _ _ _ _ _ hf'] at h
        cases q with
        | nil =>
          rw [payloadAt_nil, JTree.payload_mk] at h
          exact Or.inr ⟨[], by rw [payloadAt_nil]; exact h⟩
        | cons j qs =>
          by_cases hjk : k = j
          · subst hjk
            rw [payloadAt_cons_some qs
              (show assocLookup
                  (JTree.mk t.payload
                    (assocUpdate t.children k
                      (setSegs ((assocLookup t.children k).getD JTree.empty)
                        (k2 :: ks') v))).children k = some _ by
                rw [JTree.children_mk, assocLookup_update, if_pos rfl])] at h
            rcases ih _ qs a h with hl | ⟨q2, h2⟩
            · exact Or.inl hl
            · cases hc : assocLookup t.children k with
              | none =>
                rw [hc] at h2
                rw [show (none : Option (JTree α)).getD JTree.empty = JTree.empty from rfl] at h2
                rw [payloadAt_empty] at h2
                exact absurd h2 (by simp)
              | some c =>
                rw [hc] at h2
                rw [show (some c).getD JTree.empty = c from rfl] at h2
                refine Or.inr ⟨k :: q2, ?_⟩
                rw [payloadAt_cons_some q2 hc]
                exact h2
          · rw [payloadAt_cons, JTree.children_mk, assocLookup_update, if_neg hjk] at h
            rw [← payloadAt_cons] at h
            exact Or.inr ⟨j :: qs, h⟩

theorem getTree_subtree {α : Type} (t : JTree α) (P : String) (s : JTree α)
    (h : getTree t P = some s) : ∃ gs : List String, getSegs t gs = some s := by
  by_cases hP : P = ""
  · subst hP
    rw [getTree_empty_path] at h
    exact absurd h (by simp)
  · cases hsegs : getPathSegs P with
    | nil =>
      rw [getTree_eq_of_segs_nil hP hsegs] at h
      refine ⟨[P], ?_⟩
      obtain ⟨pl, ch⟩ := t
      simp only [JTree.children_mk] at h
      simp [getSegs, JTree.children_mk, h]
    | cons k ks =>
      cases hn : getSegs t (k :: ks) with
      | some r =>
        rw [getTree_eq_of_nav_some hP hsegs hn] at h
        exact ⟨k :: ks, by rw [hn, h]⟩
      | none =>
        rw [getTree_eq_of_nav_none hP hsegs hn] at h
        refine ⟨[P], ?_⟩
        obtain ⟨pl, ch⟩ := t
        simp only [JTree.children_mk] at h
        simp [getSegs, JTree.children_mk, h]

theorem payloadAt_toNestStep_provenance (ns : List String) (acc : ETree)
    (p : String) (e : FieldError) (q : List String) (a : FieldError)
    (h : payloadAt (toNestStep ns acc p e) q = some a) :
    a = e ∨ ∃ q2, payloadAt acc q2 = some a := by
  unfold toNestStep setTree at h
  by_cases harr : isNameInFieldArray ns p
  · rw [harr] at h
    simp only [if_true] at h
    rcases payloadAt_setSegs_provenance _ _ _ _ _ h with ⟨r, hr⟩ | ⟨q2, h2⟩
    · rw [setPath_root_eq] at hr
      rcases payloadAt_setSegs_provenance _ _ _ _ _ hr with ⟨r2, hr2⟩ | ⟨q3, h3⟩
      · cases r2 with
        | nil => exact Or.inl (Option.some.inj hr2).symm
        | cons j js =>
          rw [payloadAt_cons_none js (by rfl)] at hr2
          exact absurd hr2 (by simp)
      · cases hg : getTree acc p with
        | none =>
          rw [hg] at h3
          rw [show (none : Option ETree).getD JTree.empty = JTree.empty from rfl] at h3
          rw [payloadAt_empty] at h3
          exact absurd h3 (by simp)
        | some s =>
          rw [hg] at h3
          rw [show (some s).getD JTree.empty = s from rfl] at h3
          obtain ⟨gs, hgs⟩ := getTree_subtree acc p s hg
          refine Or.inr ⟨gs ++ q3, ?_⟩
          rw [payloadAt_append, hgs]
          exact h3
    · exact Or.inr ⟨q2, h2⟩
  · rw [show isNameInFieldArray ns p = false by simpa using harr] at h
    simp only [Bool.false_eq_true, if_false] at h
    rcases payloadAt_setSegs_provenance _ _ _ _ _ h with ⟨r, hr⟩ | ⟨q2, h2⟩
    · cases r with
      | nil => exact Or.inl (Option.some.inj hr).symm
      | cons j js =>
        rw [payloadAt_cons_none js (by rfl)] at hr
        exact absurd hr (by simp)
    · exact Or.inr ⟨q2, h2⟩

theorem toNestLoop_fst_provenance (ns : List String) (opts : ResOptions) :
    ∀ (l : List (String × FieldError)) (acc : ETree) (q : List String) (a : FieldError),
      payloadAt (toNestLoop ns opts l acc).1 q = some a →
      (∃ pe ∈ l, a = attachRef opts pe.1 pe.2) ∨ ∃ q2, payloadAt acc q2 = some a := by
  intro l
  induction l with
  | nil =>
    intro acc q a h
    exact Or.inr ⟨q, h⟩
  | cons hd tl ih =>
    intro acc q a h
    obtain ⟨p, e⟩ := hd
    rw [toNestLoop_fst_cons] at h
    rcases ih _ q a h with ⟨pe, hpe, he⟩ | ⟨q2, h2⟩
    · exact Or.inl ⟨pe, by simp [hpe], he⟩
    · rcases payloadAt_toNestStep_provenance ns acc p _ q2 a h2 with he | ⟨q3, h3⟩
      · exact Or.inl ⟨(p, e), by simp, he⟩
      · exact Or.inr ⟨q3, h3⟩

/-! ### `parseErrorSchema` lemmas -/

theorem parseErrorSchema_eq_foldl (err : ValidationError) (flag : Bool) :
    parseErrorSchema err flag = err.details.foldl (parseStep flag) [] := by
  unfold parseErrorSchema
  cases h : err.details with
  | nil => simp
  | cons d ds => simp [h]

theorem parseStep_false (acc : List (String × FieldError)) (d : JoiDetail) :
    parseStep false acc d = ensurePath acc d := rfl

theorem parseStep_true (acc : List (String × FieldError)) (d : JoiDetail) :
    parseStep true acc d = criteriaStep (ensurePath acc d) d := rfl

theorem lookup_ensurePath_self (acc : List (String × FieldError)) (d : JoiDetail) :
    assocLookup (ensurePath acc d) (dotJoin d.path) =
      some ((assocLookup acc (dotJoin d.path)).getD
        { message := d.message, type := d.type }) := by
  unfold ensurePath
  cases h : assocLookup acc (dotJoin d.path) with
  | some fe => rw [h]; rfl
  | none =>
    rw [assocLookup_append, h]
    simp [assocLookup]

theorem lookup_ensurePath_other (acc : List (String × FieldError)) (d : JoiDetail)
    (p : String) (hp : p ≠ dotJoin d.path) :
    assocLookup (ensurePath acc d) p = assocLookup acc p := by
  unfold ensurePath
  cases h : assocLookup acc (dotJoin d.path) with
  | some fe => rfl
  | none =>
    rw [assocLookup_append]
    cases hacc : assocLookup acc p with
    | some v => rfl
    | none =>
      have hne : ¬ dotJoin d.path = p := fun hh => hp hh.symm
      simp [assocLookup, hne]

theorem keys_ensurePath (acc : List (String × FieldError)) (d : JoiDetail) :
    (ensurePath acc d).map Prod.fst =
      if (assocLookup acc (dotJoin d.path)).isSome then acc.map Prod.fst
      else acc.map Prod.fst ++ [dotJoin d.path] := by
  unfold ensurePath
  cases h : assocLookup acc (dotJoin d.path) with
  | some fe => simp
  | none => simp

/-- The `message` argument `parseErrorSchema` passes to `appendErrors`:
`messages ? [].concat(messages, error.message) : error.message`. -/
def stepMsgVal (messages : Option CriteriaVal) (msg : String) : CriteriaVal :=
  match messages with
  | some mv => if truthyCV mv = true then .arr (concatCV mv msg) else .str msg
  | none => .str msg

/-- The value `appendErrors` stores under `type` in one aggregation step, as a
function of the record found at the path. -/
def stepVal (cur : FieldError) (d : JoiDetail) : CriteriaVal :=
  let m := stepMsgVal (cur.types.bind (fun ts => assocLookup ts d.type)) d.message
  if truthyCV m = true then m else .tru

theorem stepVal_def (cur : FieldError) (d : JoiDetail) :
    stepVal cur d =
      if truthyCV (stepMsgVal (cur.types.bind (fun ts => assocLookup ts d.type))
          d.message) = true
      then stepMsgVal (cur.types.bind (fun ts => assocLookup ts d.type)) d.message
      else .tru := rfl

theorem stepMsgVal_none (msg : String) : stepMsgVal none msg = .str msg := rfl

theorem stepMsgVal_some_truthy {mv : CriteriaVal} (msg : String)
    (h : truthyCV mv = true) : stepMsgVal (some mv) msg = .arr (concatCV mv msg) := by
  simp [stepMsgVal, h]

theorem stepMsgVal_some_falsy {mv : CriteriaVal} (msg : String)
    (h : truthyCV mv = false) : stepMsgVal (some mv) msg = .str msg := by
  simp [stepMsgVal, h]

theorem truthyCV_arr (l : List MsgElem) : truthyCV (.arr l) = true := rfl

theorem criteriaStep_eq (acc : List (String × FieldError)) (d : JoiDetail)
    (cur : FieldError) (hcur : assocLookup acc (dotJoin d.path) = some cur) :
    criteriaStep acc d =
      assocUpdate acc (dotJoin d.path)
        { cur with
          types := some (assocUpdate (cur.types.getD []) d.type (stepVal cur d)) } := by
  simp only [criteriaStep, appendErrors, stepVal, stepMsgVal, hcur,
    Option.getD_some, if_true]

theorem keys_parseStep (flag : Bool) (acc : List (String × FieldError)) (d : JoiDetail) :
    (parseStep flag acc d).map Prod.fst =
      if (assocLookup acc (dotJoin d.path)).isSome then acc.map Prod.fst
      else acc.map Prod.fst ++ [dotJoin d.path] := by
  cases flag with
  | false => rw [parseStep_false, keys_ensurePath]
  | true =>
    rw [parseStep_true]
    rw [criteriaStep_eq (ensurePath acc d) d _ (lookup_ensurePath_self acc d)]
    rw [keys_assocUpdate]
    rw [lookup_ensurePath_self acc d]
    simp only [Option.isSome_some, if_true]
    rw [keys_ensurePath]

theorem lookup_parseStep_isSome (flag : Bool) (acc : List (String × FieldError))
    (d : JoiDetail) (p : String) :
    (assocLookup (parseStep flag acc d) p).isSome = true ↔
      (assocLookup acc p).isSome = true ∨ p = dotJoin d.path := by
  rw [assocLookup_isSome_iff_mem, assocLookup_isSome_iff_mem, keys_parseStep]
  by_cases h : (assocLookup acc (dotJoin d.path)).isSome = true
  · rw [if_pos h]
    constructor
    · intro hm; exact Or.inl hm
    · rintro (hm | hp)
      · exact hm
      · subst hp
        rw [← assocLookup_isSome_iff_mem]
        exact h
  · rw [if_neg h]
    simp only [List.mem_append, List.mem_singleton]

theorem lookup_foldl_parseStep_isSome (flag : Bool) :
    ∀ (ds : List JoiDetail) (acc : List (String × FieldError)) (p : String),
      (assocLookup (ds.foldl (parseStep flag) acc) p).isSome = true ↔
        (assocLookup acc p).isSome = true ∨ ∃ d ∈ ds, dotJoin d.path = p := by
  intro ds
  induction ds with
  | nil => intro acc p; simp
  | cons d tl ih =>
    intro acc p
    rw [List.foldl_cons, ih]
    rw [lookup_parseStep_isSome]
    constructor
    · rintro ((hm | hp) | ⟨d2, hd2, he⟩)
      · exact Or.inl hm
      · exact Or.inr ⟨d, by simp, hp.symm⟩
      · exact Or.inr ⟨d2, by simp [hd2], he⟩
    · rintro (hm | ⟨d2, hd2, he⟩)
      · exact Or.inl (Or.inl hm)
      · rcases List.mem_cons.mp hd2 with h1 | h1
        · subst h1; exact Or.inl (Or.inr he.symm)
        · exact Or.inr ⟨d2, h1, he⟩

theorem nodup_keys_foldl_parseStep (flag : Bool) :
    ∀ (ds : List JoiDetail) (acc : List (String × FieldError)),
      (acc.map Prod.fst).Nodup → ((ds.foldl (parseStep flag) acc).map Prod.fst).Nodup := by
  intro ds
  induction ds with
  | nil => intro acc h; exact h
  | cons d tl ih =>
    intro acc h
    rw [List.foldl_cons]
    apply ih
    rw [keys_parseStep]
    by_cases hs : (assocLookup acc (dotJoin d.path)).isSome = true
    · rw [if_pos hs]; exact h
    · rw [if_neg hs]
      rw [List.nodup_append]
      refine ⟨h, List.nodup_singleton _, ?_⟩
      intro a ha hb
      rw [List.mem_singleton] at hb
      subst hb
      rw [← assocLookup_isSome_iff_mem] at ha
      exact hs ha

theorem lookup_foldl_parseStep_false_of_some :
    ∀ (ds : List JoiDetail) (acc : List (String × FieldError)) (p : String)
      (v : FieldError), assocLookup acc p = some v →
      assocLookup (ds.foldl (parseStep false) acc) p = some v := by
  intro ds
  induction ds with
  | nil => intro acc p v h; exact h
  | cons d tl ih =>
    intro acc p v h
    rw [List.foldl_cons]
    apply ih
    rw [parseStep_false]
    by_cases hp : p = dotJoin d.path
    · subst hp
      rw [lookup_ensurePath_self, h]
      rfl
    · rw [lookup_ensurePath_other _ _ _ hp]
      exact h

theorem lookup_foldl_parseStep_false_of_none :
    ∀ (ds : List JoiDetail) (acc : List (String × FieldError)) (p : String),
      assocLookup acc p = none →
      assocLookup (ds.foldl (parseStep false) acc) p =
        (ds.find? (fun d => dotJoin d.path == p)).map
          (fun d => { message := d.message, type := d.type }) := by
  intro ds
  induction ds with
  | nil => intro acc p h; exact h
  | cons d tl ih =>
    intro acc p h
    rw [List.foldl_cons, parseStep_false]
    by_cases hp : p = dotJoin d.path
    · subst hp
      have hl : assocLookup (ensurePath acc d) (dotJoin d.path) =
          some { message := d.message, type := d.type } := by
        rw [lookup_ensurePath_self, h]
        rfl
      rw [lookup_foldl_parseStep_false_of_some tl _ _ _ hl]
      rw [List.find?_cons_of_pos _ (by simp)]
      rfl
    · rw [List.find?_cons_of_neg _
        (by simp only [beq_iff_eq]; exact fun hh => hp hh.symm)]
      rw [← ih (ensurePath acc d) p (by rw [lookup_ensurePath_other _ _ _ hp]; exact h)]

/-! ### Aggregation invariants for `parseErrorSchema` in all-criteria mode -/

/-- Every per-type entry stored in the mapping is truthy (what `appendErrors`
guarantees via `message || true`). -/
def TruthyInv (acc : List (String × FieldError)) : Prop :=
  ∀ p fe, assocLookup acc p = some fe → ∀ ts, fe.types = some ts →
    ∀ t cv, assocLookup ts t = some cv → truthyCV cv = true

/-- The mapping records message `m` under path `p` and error type `t`. -/
def HasMsg (acc : List (String × FieldError)) (p t m : String) : Prop :=
  ∃ fe ts cv, assocLookup acc p = some fe ∧ fe.types = some ts ∧
    assocLookup ts t = some cv ∧ msgMem m cv = true

theorem truthyInv_nil : TruthyInv [] := by
  intro p fe hfe
  simp [assocLookup] at hfe

theorem msgMem_concat_self (mv : CriteriaVal) (m : String) :
    msgMem m (.arr (concatCV mv m)) = true := by
  cases mv with
  | tru => simp [msgMem, concatCV]
  | str s => simp [msgMem, concatCV]
  | arr l => simp [msgMem, concatCV]

theorem msgMem_concat_mono (mv : CriteriaVal) (m m2 : String)
    (h : msgMem m mv = true) : msgMem m (.arr (concatCV mv m2)) = true := by
  cases mv with
  | tru => simp [msgMem] at h
  | str s =>
    simp only [msgMem, beq_iff_eq] at h
    subst h
    simp [msgMem, concatCV]
  | arr l =>
    simp only [msgMem, concatCV, List.any_append, Bool.or_eq_true]
    exact Or.inl (by simpa [msgMem] using h)

theorem truthyCV_ite (v : CriteriaVal) :
    truthyCV (if truthyCV v = true then v else .tru) = true := by
  by_cases h : truthyCV v = true
  · rw [if_pos h]; exact h
  · rw [if_neg h]; rfl

theorem truthyCV_stepVal (cur : FieldError) (d : JoiDetail) :
    truthyCV (stepVal cur d) = true := by
  rw [stepVal_def]
  exact truthyCV_ite _

theorem msgMem_stepVal_self (cur : FieldError) (d : JoiDetail)
    (hmsg : d.message ≠ "") : msgMem d.message (stepVal cur d) = true := by
  have ht : truthyCV (.str d.message) = true := by
    simp [truthyCV, hmsg]
  rw [stepVal_def]
  cases hm : cur.types.bind (fun ts => assocLookup ts d.type) with
  | none =>
    rw [stepMsgVal_none, if_pos ht]
    simp [msgMem]
  | some mv =>
    by_cases htr : truthyCV mv = true
    · rw [stepMsgVal_some_truthy _ htr, if_pos (truthyCV_arr _)]
      exact msgMem_concat_self mv d.message
    · rw [stepMsgVal_some_falsy _ (by simpa using htr), if_pos ht]
      simp [msgMem]

theorem stepVal_of_found (cur : FieldError) (d : JoiDetail)
    (ts : List (String × CriteriaVal)) (cv : CriteriaVal)
    (hts : cur.types = some ts) (hcv : assocLookup ts d.type = some cv)
    (htr : truthyCV cv = true) :
    stepVal cur d = .arr (concatCV cv d.message) := by
  rw [stepVal_def]
  have hb : cur.types.bind (fun ts => assocLookup ts d.type) = some cv := by
    rw [hts]
    simpa using hcv
  rw [hb, stepMsgVal_some_truthy _ htr, if_pos (truthyCV_arr _)]

theorem truthyInv_ensurePath (acc : List (String × FieldError)) (d : JoiDetail)
    (h : TruthyInv acc) : TruthyInv (ensurePath acc d) := by
  intro p fe hfe ts hts t cv hcv
  by_cases hp : p = dotJoin d.path
  · subst hp
    rw [lookup_ensurePath_self] at hfe
    cases hacc : assocLookup acc (dotJoin d.path) with
    | some fe0 =>
      rw [hacc] at hfe
      simp only [Option.getD_some, Option.some.injEq] at hfe
      subst hfe
      exact h _ fe0 hacc ts hts t cv hcv
    | none =>
      rw [hacc] at hfe
      simp only [Option.getD_none, Option.some.injEq] at hfe
      subst hfe
      simp at hts
  · rw [lookup_ensurePath_other _ _ _ hp] at hfe
    exact h p fe hfe ts hts t cv hcv

theorem truthyInv_criteriaStep (acc : List (String × FieldError)) (d : JoiDetail)
    (cur : FieldError) (hcur : assocLookup acc (dotJoin d.path) = some cur)
    (h : TruthyInv acc) : TruthyInv (criteriaStep acc d) := by
  rw [criteriaStep_eq acc d cur hcur]
  intro p fe hfe ts hts t cv hcv
  rw [assocLookup_update] at hfe
  by_cases hp : dotJoin d.path = p
  · rw [if_pos hp] at hfe
    have hfe2 := Option.some.inj hfe
    subst hfe2
    simp only [Option.some.injEq] at hts
    subst hts
    rw [assocLookup_update] at hcv
    by_cases htt : d.type = t
    · rw [if_pos htt] at hcv
      have := Option.some.inj hcv
      subst this
      exact truthyCV_stepVal cur d
    · rw [if_neg htt] at hcv
      cases hct : cur.types with
      | none => rw [hct] at hcv; simp [assocLookup] at hcv
      | some ts0 =>
        rw [hct] at hcv
        simp only [Option.getD_some] at hcv
        exact h _ cur hcur ts0 hct t cv hcv
  · rw [if_neg hp] at hfe
    exact h p fe hfe ts hts t cv hcv

theorem truthyInv_parseStep_true (acc : List (String × FieldError)) (d : JoiDetail)
    (h : TruthyInv acc) : TruthyInv (parseStep true acc d) := by
  rw [parseStep_true]
  exact truthyInv_criteriaStep _ d _ (lookup_ensurePath_self acc d)
    (truthyInv_ensurePath acc d h)

theorem hasMsg_parseStep_true (acc : List (String × FieldError)) (d : JoiDetail)
    (p t m : String) (hinv : TruthyInv acc) (hm : HasMsg acc p t m) :
    HasMsg (parseStep true acc d) p t m := by
  obtain ⟨fe, ts, cv, hfe, hts, hcv, hmem⟩ := hm
  rw [parseStep_true]
  by_cases hp : p = dotJoin d.path
  · subst hp
    have hcur : assocLookup (ensurePath acc d) (dotJoin d.path) = some fe := by
      rw [lookup_ensurePath_self, hfe]
      rfl
    rw [criteriaStep_eq _ d fe hcur]
    by_cases htt : t = d.type
    · subst htt
      have htr : truthyCV cv = true := hinv _ fe hfe ts hts d.type cv hcv
      refine ⟨{ fe with
          types := some (assocUpdate (fe.types.getD []) d.type (stepVal fe d)) },
        assocUpdate (fe.types.getD []) d.type (stepVal fe d),
        .arr (concatCV cv d.message), ?_, rfl, ?_, ?_⟩
      · rw [assocLookup_update, if_pos rfl]
      · rw [hts]
        simp only [Option.getD_some]
        rw [stepVal_of_found fe d ts cv hts hcv htr]
        rw [assocLookup_update, if_pos rfl]
      · exact msgMem_concat_mono cv m d.message hmem
    · refine ⟨{ fe with
          types := some (assocUpdate (fe.types.getD []) d.type (stepVal fe d)) },
        assocUpdate (fe.types.getD []) d.type (stepVal fe d), cv, ?_, rfl, ?_, hmem⟩
      · rw [assocLookup_update, if_pos rfl]
      · rw [hts]
        simp only [Option.getD_some]
        rw [assocLookup_update, if_neg (fun hh => htt hh.symm)]
        exact hcv
  · have h1 : assocLookup (ensurePath acc d) p = some fe := by
      rw [lookup_ensurePath_other _ _ _ hp]
      exact hfe
    rw [criteriaStep_eq _ d _ (lookup_ensurePath_self acc d)]
    refine ⟨fe, ts, cv, ?_, hts, hcv, hmem⟩
    rw [assocLookup_update, if_neg (fun hh => hp hh.symm)]
    exact h1

theorem hasMsg_self_parseStep_true (acc : List (String × FieldError)) (d : JoiDetail)
    (hmsg : d.message ≠ "") :
    HasMsg (parseStep true acc d) (dotJoin d.path) d.type d.message := by
  rw [parseStep_true]
  have hcur := lookup_ensurePath_self acc d
  rw [criteriaStep_eq _ d _ hcur]
  set cur0 := (assocLookup acc (dotJoin d.path)).getD
    { message := d.message, type := d.type } with hc0
  refine ⟨{ cur0 with
      types := some (assocUpdate (cur0.types.getD []) d.type (stepVal cur0 d)) },
    assocUpdate (cur0.types.getD []) d.type (stepVal cur0 d),
    stepVal cur0 d, ?_, rfl, ?_, msgMem_stepVal_self _ d hmsg⟩
  · rw [assocLookup_update, if_pos rfl]
  · rw [assocLookup_update, if_pos rfl]

theorem foldl_parse_agg :
    ∀ (ds : List JoiDetail) (acc : List (String × FieldError)),
      TruthyInv acc → (∀ d ∈ ds, d.message ≠ "") →
      TruthyInv (ds.foldl (parseStep true) acc) ∧
      (∀ p t m, HasMsg acc p t m → HasMsg (ds.foldl (parseStep true) acc) p t m) ∧
      (∀ d ∈ ds, HasMsg (ds.foldl (parseStep true) acc) (dotJoin d.path) d.type d.message) := by
  intro ds
  induction ds with
  | nil =>
    intro acc hinv _
    exact ⟨hinv, fun p t m hm => hm, by intro d hd; simp at hd⟩
  | cons d tl ih =>
    intro acc hinv hmsgs
    have hinv1 : TruthyInv (parseStep true acc d) := truthyInv_parseStep_true acc d hinv
    have hmsgs1 : ∀ d2 ∈ tl, d2.message ≠ "" := fun d2 hd2 => hmsgs d2 (by simp [hd2])
    obtain ⟨ih1, ih2, ih3⟩ := ih (parseStep true acc d) hinv1 hmsgs1
    refine ⟨by rwa [List.foldl_cons], ?_, ?_⟩
    · intro p t m hm
      rw [List.foldl_cons]
      exact ih2 p t m (hasMsg_parseStep_true acc d p t m hinv hm)
    · intro d2 hd2
      rw [List.foldl_cons]
      rcases List.mem_cons.mp hd2 with h1 | h1
      · subst h1
        exact ih2 _ _ _ (hasMsg_self_parseStep_true acc d2 (hmsgs d2 (by simp)))
      · exact ih3 d2 h1

/-! ### How `joiResolver` runs each validation entry point -/

theorem joiResolver_sync_run {α γ : Type} (schema : JoiSchema α γ)
    (so : JoiValidationOptions γ) (ro : JoiResolverOptions) (values : α)
    (context : Option γ) (options : ResOptions) (h : ro.mode = some "sync") :
    joiResolver schema so ro values context options =
      joiProcess (schema.validate values { so with context := context }) options := by
  simp only [joiResolver, h, if_true]

theorem joiResolver_async_run {α γ : Type} (schema : JoiSchema α γ)
    (so : JoiValidationOptions γ) (ro : JoiResolverOptions) (values : α)
    (context : Option γ) (options : ResOptions) (h : ro.mode ≠ some "sync") :
    joiResolver schema so ro values context options =
      joiProcess (joiAsyncResult (schema.validateAsync values
        { so with context := context })) options := by
  simp only [joiResolver, h, if_false]

theorem joiProcess_error {α : Type} (result : JoiResult α) (options : ResOptions)
    (e : ValidationError) (h : result.error = some e) :
    joiProcess result options =
      { values := OutValues.emptyObj,
        errors := toNestErrors (parseErrorSchema e (allCriteriaFlag options)) options } := by
  unfold joiProcess
  rw [h]

theorem joiProcess_ok {α : Type} (result : JoiResult α) (options : ResOptions)
    (h : result.error = none) :
    joiProcess result options =
      { values := OutValues.value result.value, errors := JTree.empty } := by
  unfold joiProcess
  rw [h]

/-! ### Concrete fixtures used by witnesses and counterexamples -/

namespace Fix

def feA : FieldError := { message := "bad", type := "t1" }

def feB : FieldError := { message := "worse", type := "t2" }

def opts0 : ResOptions := { fields := JTree.empty }

def optsLit : ResOptions := { fields := JTree.empty, names := some ["tags", "tags.0"] }

def optsArr : ResOptions := { fields := JTree.empty, names := some ["tags.0"] }

def optsCtor : ResOptions := { fields := JTree.empty, names := some ["constructor.0"] }

def dA : JoiDetail := { path := ["a"], message := "bad", type := "t1" }

def dA2 : JoiDetail := { path := ["a"], message := "worse", type := "t1" }

def vErr : ValidationError := { details := [dA, dA2] }

def schemaFail : JoiSchema Nat Nat :=
  { validate := fun v _ => { value := some v, error := some vErr },
    validateAsync := fun _ _ => Except.error vErr }

def schemaOk : JoiSchema Nat Nat :=
  { validate := fun v _ => { value := some (v + 1), error := none },
    validateAsync := fun v _ => Except.ok (v + 2) }

def soN : JoiValidationOptions Nat := {}

def roAsync : JoiResolverOptions := {}

def roSync : JoiResolverOptions := { mode := some "sync" }

def accW : ETree := setTree JTree.empty "tags.0" (leafE feB)

end Fix

/-! ### Claims -/

/-- C9: `toNestErrors` mutates its input: for every path in the input error
mapping, the `Object.assign` writes the `ref` property (the field registry's
ref for that path) onto that same record in place, so after the call the
caller's error records carry the added `ref` field. -/
theorem c9_toNestErrors_mutates_input (errors : List (String × FieldError))
    (opts : ResOptions) :
    (toNestErrorsFull errors opts).2 =
      errors.map (fun pe => (pe.1, attachRef opts pe.1 pe.2)) := by
  unfold toNestErrorsFull
  exact toNestLoop_snd _ opts errors JTree.empty

/-- C8: within a single validation pass, the mapping built by
`parseErrorSchema` has unique path keys, and with all-errors mode off the
first error reported for a path determines the entry's message and type. -/
theorem c8_parseErrorSchema_unique_first (err : ValidationError) (flag : Bool)
    (p : String) :
    ((parseErrorSchema err flag).map Prod.fst).Nodup ∧
    assocLookup (parseErrorSchema err false) p =
      (err.details.find? (fun d => dotJoin d.path == p)).map
        (fun d => { message := d.message, type := d.type }) := by
  constructor
  · rw [parseErrorSchema_eq_foldl]
    exact nodup_keys_foldl_parseStep flag err.details [] (by simp)
  · rw [parseErrorSchema_eq_foldl]
    exact lookup_foldl_parseStep_false_of_none err.details [] p rfl

/-- C4: `parseErrorSchema` flattens the error details into a mapping keyed
exactly by the dot-joined paths of the details, and in all-errors mode it
aggregates multiple errors for a path, collecting each detail's message under
its error type instead of keeping only the first (messages are nonempty, as
the external validator produces them). -/
theorem c4_parseErrorSchema_flatten_aggregate (err : ValidationError) (flag : Bool) :
    (∀ p, (assocLookup (parseErrorSchema err flag) p).isSome = true ↔
        ∃ d ∈ err.details, dotJoin d.path = p) ∧
    ((∀ d ∈ err.details, d.message ≠ "") → ∀ d ∈ err.details,
      ∃ fe ts cv, assocLookup (parseErrorSchema err true) (dotJoin d.path) = some fe ∧
        fe.types = some ts ∧ assocLookup ts d.type = some cv ∧
        msgMem d.message cv = true) := by
  constructor
  · intro p
    rw [parseErrorSchema_eq_foldl, lookup_foldl_parseStep_isSome]
    simp [assocLookup]
  · intro hmsgs d hd
    rw [parseErrorSchema_eq_foldl]
    exact (foldl_parse_agg err.details [] truthyInv_nil hmsgs).2.2 d hd

/-- C4 witness: on a concrete error with two details for the same path and
type, the aggregated entry holds the second message as well. -/
theorem c4_parseErrorSchema_flatten_aggregate_witness :
    ∃ fe ts cv,
      assocLookup (parseErrorSchema Fix.vErr true) (dotJoin Fix.dA2.path) = some fe ∧
      fe.types = some ts ∧ assocLookup ts Fix.dA2.type = some cv ∧
      msgMem Fix.dA2.message cv = true :=
  (c4_parseErrorSchema_flatten_aggregate Fix.vErr true).2
    (by decide) Fix.dA2 (by decide)

/-- C2 counterexample: as stated, the claim fails on the code.  With error
keys `a.b` and `a` (neither under an array field), iterating `a` after `a.b`
replaces the whole subtree at `a`, erasing the record at `a.b`; a path whose
normalised key list is empty (`.`) is never written at all; and a path hitting
`set`'s reserved-key guard (`__proto__`) is dropped. -/
theorem c2_counterexample :
    isNameInFieldArray ["a.b", "a"] "a.b" = false
    ∧ payloadAt (toNestErrors [("a.b", Fix.feA), ("a", Fix.feB)] Fix.opts0)
        ["a", "b"] = none
    ∧ ¬ (payloadAt (toNestErrors [("a.b", Fix.feA), ("a", Fix.feB)] Fix.opts0)
        ["a", "b"] = some (attachRef Fix.opts0 "a.b" Fix.feA))
    ∧ toNestErrors [(".", Fix.feA)] Fix.opts0 = JTree.empty
    ∧ payloadAt (toNestErrors [("__proto__", Fix.feA)] Fix.opts0) ["__proto__"] = none :=
  ⟨rfl, rfl, by decide, rfl, rfl⟩

/-- C2 (amended): for an error path not under a registered array-type field,
the returned tree places the ref-attached record exactly at that path's
normalised segments, provided the path normalises to a nonempty key list that
avoids `set`'s reserved keys and no other error key's normalised key list is a
prefix of it (the input mapping, being a JS object, has distinct keys). -/
theorem c2_toNestErrors_exact_path (errors : List (String × FieldError))
    (opts : ResOptions) (P : String) (e : FieldError)
    (hmem : (P, e) ∈ errors)
    (hnd : (errors.map Prod.fst).Nodup)
    (harr : isNameInFieldArray (opts.names.getD (errors.map Prod.fst)) P = false)
    (hne : setPath P ≠ [])
    (hforb : ∀ k ∈ setPath P, forbiddenKey k = false)
    (hsep : ∀ pe ∈ errors, pe.1 ≠ P → ¬ (setPath pe.1 <+: setPath P)) :
    payloadAt (toNestErrors errors opts) (setPath P) = some (attachRef opts P e) := by
  obtain ⟨l1, l2, rfl⟩ := List.append_of_mem hmem
  unfold toNestErrors toNestErrorsFull
  rw [toNestLoop_fst_append, toNestLoop_fst_cons]
  have hPnotl2 : P ∉ l2.map Prod.fst := by
    rw [List.map_append, List.map_cons] at hnd
    have h2 := hnd.of_append_right
    exact (List.nodup_cons.mp h2).1
  rw [toNestLoop_fst_preserve _ opts (setPath P) l2 _ (by
    intro pe hpe
    refine hsep pe (by simp [hpe]) ?_
    intro he
    subst he
    exact hPnotl2 (List.mem_map_of_mem Prod.fst hpe))]
  exact payloadAt_toNestStep_self _ _ P _ harr hne hforb

/-- C2 witness: two sibling paths, each placed at its own segments. -/
theorem c2_toNestErrors_exact_path_witness :
    payloadAt (toNestErrors [("a.b", Fix.feA), ("a.c", Fix.feB)] Fix.opts0)
      (setPath "a.b") = some (attachRef Fix.opts0 "a.b" Fix.feA) :=
  c2_toNestErrors_exact_path [("a.b", Fix.feA), ("a.c", Fix.feB)] Fix.opts0
    "a.b" Fix.feA (by decide) (by decide) (by decide) (by decide) (by decide)
    (by decide)

/-- C1 counterexample: as stated, the claim fails on the code.  An error keyed
`tags.0` (registered array field `tags`, dot, index) is placed at `tags.0`,
not under `tags.root`; the record that lands at `field.root` is the one keyed
by the array field path `field` itself, and even that is overwritten when a
later error key such as `tags.root` writes over the bucket, or dropped when
the field path hits `set`'s reserved-key guard. -/
theorem c1_counterexample :
    payloadAt (toNestErrors [("tags.0", Fix.feA)] Fix.optsLit) ["tags", "root"] = none
    ∧ payloadAt (toNestErrors [("tags.0", Fix.feA)] Fix.optsLit) ["tags", "0"] =
        some (attachRef Fix.optsLit "tags.0" Fix.feA)
    ∧ isNameInFieldArray ["tags.0"] "tags" = true
    ∧ ¬ (payloadAt (toNestErrors [("tags", Fix.feA), ("tags.root", Fix.feB)] Fix.optsArr)
        ["tags", "root"] = some (attachRef Fix.optsArr "tags" Fix.feA))
    ∧ payloadAt (toNestErrors [("constructor", Fix.feA)] Fix.optsCtor)
        ["constructor", "root"] = none :=
  ⟨rfl, rfl, rfl, by decide, rfl⟩

/-- C1 (amended): for an error keyed by an array-field path `P` (the pattern
`P\.\d+` matches a registered name), the ref-attached record is placed under
`P.root`, provided `P` normalises the same way for `get` and `set` to a
nonempty reserved-key-free key list and no other error key's normalised key
list is a prefix of `P.root`'s; and the field-array branch preserves every
sibling entry already present in that field's bucket (any key other than
`root`) rather than overwriting it. -/
theorem c1_toNestErrors_fieldArray_root (errors : List (String × FieldError))
    (opts : ResOptions) (P : String) (e : FieldError)
    (hmem : (P, e) ∈ errors)
    (hnd : (errors.map Prod.fst).Nodup)
    (harr : isNameInFieldArray (opts.names.getD (errors.map Prod.fst)) P = true)
    (hp : getPathSegs P = setPath P)
    (hne : setPath P ≠ [])
    (hforb : ∀ k ∈ setPath P, forbiddenKey k = false)
    (hsep : ∀ pe ∈ errors, pe.1 ≠ P →
      ¬ (setPath pe.1 <+: setPath P ++ ["root"])) :
    payloadAt (toNestErrors errors opts) (setPath P ++ ["root"]) =
      some (attachRef opts P e)
    ∧ ∀ (acc : ETree) (e2 : FieldError), keysOK acc = true →
        ∀ (k : String) (r : List String), k ≠ "root" →
        payloadAt (toNestStep (opts.names.getD (errors.map Prod.fst)) acc P e2)
            (setPath P ++ k :: r) =
          payloadAt acc (setPath P ++ k :: r) := by
  constructor
  · obtain ⟨l1, l2, he⟩ := List.append_of_mem hmem
    rw [he] at harr hnd hsep ⊢
    unfold toNestErrors toNestErrorsFull
    rw [toNestLoop_fst_append, toNestLoop_fst_cons]
    have hPnotl2 : P ∉ l2.map Prod.fst := by
      rw [List.map_append, List.map_cons] at hnd
      have h2 := hnd.of_append_right
      exact (List.nodup_cons.mp h2).1
    rw [toNestLoop_fst_preserve _ opts (setPath P ++ ["root"]) l2 _ (by
      intro pe hpe
      refine hsep pe (by simp [hpe]) ?_
      intro heq
      subst heq
      exact hPnotl2 (List.mem_map_of_mem Prod.fst hpe))]
    exact payloadAt_toNestStep_root _ _ P _ harr hne hforb
  · intro acc e2 hk k r hkroot
    exact payloadAt_toNestStep_sibling _ acc P e2 harr hk hp hne hforb k r hkroot

/-- C1 witness: aggregate error on `tags` goes to `tags.root`, and the step
for `tags` leaves the sibling entry `tags.0` of a concrete bucket unchanged. -/
theorem c1_toNestErrors_fieldArray_root_witness :
    payloadAt (toNestErrors [("tags", Fix.feA), ("tags.0", Fix.feB)] Fix.optsArr)
        (setPath "tags" ++ ["root"]) = some (attachRef Fix.optsArr "tags" Fix.feA)
    ∧ payloadAt
        (toNestStep (Fix.optsArr.names.getD
            ([("tags", Fix.feA), ("tags.0", Fix.feB)].map Prod.fst))
          Fix.accW "tags" Fix.feB)
        (setPath "tags" ++ "0" :: []) =
      payloadAt Fix.accW (setPath "tags" ++ "0" :: []) := by
  have h := c1_toNestErrors_fieldArray_root
    [("tags", Fix.feA), ("tags.0", Fix.feB)] Fix.optsArr "tags" Fix.feA
    (by decide) (by decide) (by decide) (by decide) (by decide) (by decide)
    (by decide)
  exact ⟨h.1, h.2 Fix.accW Fix.feB (by decide) "0" [] (by decide)⟩

/-- C6: every error record found in the tree returned by `toNestErrors` is an
input record for some path with that path's field reference attached, where
the attached reference is exactly what the registry lookup
`get(options.fields, path)` yields. -/
theorem c6_toNestErrors_ref_attachment (errors : List (String × FieldError))
    (opts : ResOptions) :
    (∀ (q : List String) (e2 : FieldError),
      payloadAt (toNestErrors errors opts) q = some e2 →
      ∃ p e, (p, e) ∈ errors ∧ e2 = attachRef opts p e)
    ∧ ∀ (p : String) (e : FieldError),
        (attachRef opts p e).ref = (getTree opts.fields p).bind JTree.payload := by
  constructor
  · intro q e2 h
    unfold toNestErrors toNestErrorsFull at h
    rcases toNestLoop_fst_provenance _ opts errors JTree.empty q e2 h with
      ⟨pe, hpe, he⟩ | ⟨q2, h2⟩
    · exact ⟨pe.1, pe.2, hpe, he⟩
    · rw [payloadAt_empty] at h2
      exact absurd h2 (by simp)
  · intro p e
    rfl

/-- C6 witness: the record found at `a` in a concrete tree is the input record
for `a` with the registry's ref attached. -/
theorem c6_toNestErrors_ref_attachment_witness :
    ∃ p e, (p, e) ∈ [("a", Fix.feA)] ∧ Fix.feA = attachRef Fix.opts0 p e :=
  (c6_toNestErrors_ref_attachment [("a", Fix.feA)] Fix.opts0).1 ["a"] Fix.feA rfl

/-- C3: whenever the external schema reports a failure — the synchronous
result carries an `error`, or the asynchronous entry point rejects — the
resolver returns normally with the failure converted through
`parseErrorSchema` and `toNestErrors` into the host error tree, in both
modes. -/
theorem c3_joiResolver_converts_failures {α γ : Type} (schema : JoiSchema α γ)
    (so : JoiValidationOptions γ) (ro : JoiResolverOptions) (values : α)
    (context : Option γ) (options : ResOptions) (e : ValidationError) :
    (ro.mode = some "sync" →
      (schema.validate values { so with context := context }).error = some e →
      joiResolver schema so ro values context options =
        { values := OutValues.emptyObj,
          errors := toNestErrors (parseErrorSchema e (allCriteriaFlag options))
            options })
    ∧ (ro.mode ≠ some "sync" →
      schema.validateAsync values { so with context := context } = .error e →
      joiResolver schema so ro values context options =
        { values := OutValues.emptyObj,
          errors := toNestErrors (parseErrorSchema e (allCriteriaFlag options))
            options }) := by
  constructor
  · intro hm he
    rw [joiResolver_sync_run schema so ro values context options hm]
    exact joiProcess_error _ options e he
  · intro hm he
    rw [joiResolver_async_run schema so ro values context options hm]
    exact joiProcess_error _ options e (by rw [he]; rfl)

/-- C3 witness: a schema whose async validation rejects is converted to the
host tree by the default-mode resolver. -/
theorem c3_joiResolver_converts_failures_witness :
    joiResolver Fix.schemaFail Fix.soN Fix.roAsync 5 none Fix.opts0 =
      { values := OutValues.emptyObj,
        errors := toNestErrors (parseErrorSchema Fix.vErr (allCriteriaFlag Fix.opts0))
          Fix.opts0 } :=
  (c3_joiResolver_converts_failures Fix.schemaFail Fix.soN Fix.roAsync 5 none
    Fix.opts0 Fix.vErr).2 (by decide) rfl

/-- C5: when validation succeeds, the resolver returns the validated/coerced
value produced by the validator together with an empty errors object, in both
modes. -/
theorem c5_joiResolver_success {α γ : Type} (schema : JoiSchema α γ)
    (so : JoiValidationOptions γ) (ro : JoiResolverOptions) (values : α)
    (context : Option γ) (options : ResOptions) (w : α) :
    (ro.mode = some "sync" →
      (schema.validate values { so with context := context }).error = none →
      joiResolver schema so ro values context options =
        { values := OutValues.value
            (schema.validate values { so with context := context }).value,
          errors := JTree.empty })
    ∧ (ro.mode ≠ some "sync" →
      schema.validateAsync values { so with context := context } = .ok w →
      joiResolver schema so ro values context options =
        { values := OutValues.value (some w), errors := JTree.empty }) := by
  constructor
  · intro hm he
    rw [joiResolver_sync_run schema so ro values context options hm]
    exact joiProcess_ok _ options he
  · intro hm he
    rw [joiResolver_async_run schema so ro values context options hm]
    rw [joiProcess_ok _ options (by rw [he]; rfl)]
    rw [he]
    rfl

/-- C5 witness: both modes return the validator's coerced value with empty
errors on a concrete succeeding schema. -/
theorem c5_joiResolver_success_witness :
    joiResolver Fix.schemaOk Fix.soN Fix.roSync 5 none Fix.opts0 =
      { values := OutValues.value (some 6), errors := JTree.empty } :=
  (c5_joiResolver_success Fix.schemaOk Fix.soN Fix.roSync 5 none Fix.opts0 7).1
    rfl rfl

/-- C7: the resolver honours the sync/async toggle: with
`resolverOptions.mode = 'sync'` the outcome is computed from the synchronous
`validate` result, in every other case from the awaited `validateAsync`
result; accordingly the sync-mode outcome is independent of `validateAsync`
and the async-mode outcome is independent of `validate`. -/
theorem c7_joiResolver_mode_toggle {α γ : Type} (schema : JoiSchema α γ)
    (so : JoiValidationOptions γ) (ro : JoiResolverOptions) (values : α)
    (context : Option γ) (options : ResOptions) :
    (ro.mode = some "sync" →
      joiResolver schema so ro values context options =
        joiProcess (schema.validate values { so with context := context }) options)
    ∧ (ro.mode ≠ some "sync" →
      joiResolver schema so ro values context options =
        joiProcess (joiAsyncResult (schema.validateAsync values
          { so with context := context })) options)
    ∧ (∀ g, ro.mode = some "sync" →
        joiResolver { schema with validateAsync := g } so ro values context options =
          joiResolver schema so ro values context options)
    ∧ (∀ f, ro.mode ≠ some "sync" →
        joiResolver { schema with validate := f } so ro values context options =
          joiResolver schema so ro values context options) := by
  refine ⟨?_, ?_, ?_, ?_⟩
  · intro hm
    exact joiResolver_sync_run schema so ro values context options hm
  · intro hm
    exact joiResolver_async_run schema so ro values context options hm
  · intro g hm
    rw [joiResolver_sync_run _ so ro values context options hm,
      joiResolver_sync_run schema so ro values context options hm]
  · intro f hm
    rw [joiResolver_async_run _ so ro values context options hm,
      joiResolver_async_run schema so ro values context options hm]

/-- C7 witness: on a schema whose two entry points disagree, sync mode
returns the `validate` value and default mode the `validateAsync` value. -/
theorem c7_joiResolver_mode_toggle_witness :
    joiResolver Fix.schemaOk Fix.soN Fix.roSync 5 none Fix.opts0 =
      joiProcess (Fix.schemaOk.validate 5 { Fix.soN with context := none }) Fix.opts0
    ∧ joiResolver Fix.schemaOk Fix.soN Fix.roAsync 5 none Fix.opts0 =
      joiProcess (joiAsyncResult (Fix.schemaOk.validateAsync 5
        { Fix.soN with context := none })) Fix.opts0 :=
  ⟨(c7_joiResolver_mode_toggle Fix.schemaOk Fix.soN Fix.roSync 5 none Fix.opts0).1 rfl,
   (c7_joiResolver_mode_toggle Fix.schemaOk Fix.soN Fix.roAsync 5 none
      Fix.opts0).2.1 (by decide)⟩

/-- C10: on every failed validation, the resolver's `values` is the literal
empty object: no partial or coerced values accompany the error tree, in both
modes. -/
theorem c10_joiResolver_failure_values_empty {α γ : Type} (schema : JoiSchema α γ)
    (so : JoiValidationOptions γ) (ro : JoiResolverOptions) (values : α)
    (context : Option γ) (options : ResOptions) (e : ValidationError) :
    (ro.mode = some "sync" →
      (schema.validate values { so with context := context }).error = some e →
      (joiResolver schema so ro values context options).values = OutValues.emptyObj)
    ∧ (ro.mode ≠ some "sync" →
      schema.validateAsync values { so with context := context } = .error e →
      (joiResolver schema so ro values context options).values =
        OutValues.emptyObj) := by
  constructor
  · intro hm he
    rw [joiResolver_sync_run schema so ro values context options hm,
      joiProcess_error _ options e he]
  · intro hm he
    rw [joiResolver_async_run schema so ro values context options hm,
      joiProcess_error _ options e (by rw [he]; rfl)]

/-- C10 witness: the sync-mode resolver on a failing schema exposes `{}` as
values. -/
theorem c10_joiResolver_failure_values_empty_witness :
    (joiResolver Fix.schemaFail Fix.soN Fix.roSync 5 none Fix.opts0).values =
      OutValues.emptyObj :=
  (c10_joiResolver_failure_values_empty Fix.schemaFail Fix.soN Fix.roSync 5 none
    Fix.opts0 Fix.vErr).1 rfl rfl

end Resolvers
